import Mathlib

/-
  A verification development for the portage dependency digraph
  (lib/portage/util/digraph.py) and the DepPriority hardness ranking
  (lib/_emerge/DepPriority.py).

  The Python class `digraph` stores, for every node, a pair of adjacency
  dictionaries (children and parents) whose values are *shared* mutable
  priority lists: the list object stored under `parent` in a node's
  parents-map is the same object stored under `node` in the parent's
  children-map.  In this pure embedding, dictionaries become association
  lists in insertion order (Python 3.7+ dict order), and the shared list
  is modelled by writing every new list value through both adjacency
  views at once, which reproduces the observable state of the mutation
  on every state where the two views agree (all states reachable by the
  public operations, see `WF` and `Reachable` below).
-/

namespace PortageVerify

/-- A Python priority object: `pid` models object identity (the `is`
comparison performed by `digraph.add`), `pval` models the value used by
ordering comparisons (for `DepPriority` objects, the integer rank). -/
structure PObj where
  pid : Nat
  pval : Int
deriving DecidableEq, Repr

/-- Ascending value order of a priority list, as maintained by
`bisect.insort` inside `digraph.add`. -/
def SortedP (l : List PObj) : Prop :=
  List.Pairwise (fun a b => a.pval ≤ b.pval) l

instance (l : List PObj) : Decidable (SortedP l) := by
  unfold SortedP; infer_instance

/-- `bisect.insort(priorities, priority)`: insert into an ascending
list, after any elements of equal value (bisect-right semantics). -/
def insort (x : PObj) : List PObj → List PObj
  | [] => [x]
  | y :: ys => if x.pval < y.pval then x :: y :: ys else y :: insort x ys

lemma mem_insort {a x : PObj} {l : List PObj} :
    a ∈ insort x l ↔ a = x ∨ a ∈ l := by
  induction l with
  | nil => simp [insort]
  | cons y ys ih =>
    by_cases h : x.pval < y.pval <;> simp [insort, h, ih] <;> tauto

lemma length_insort (x : PObj) (l : List PObj) :
    (insort x l).length = l.length + 1 := by
  induction l with
  | nil => rfl
  | cons y ys ih =>
    by_cases h : x.pval < y.pval <;> simp [insort, h, ih]

lemma insort_ne_nil (x : PObj) (l : List PObj) : insort x l ≠ [] := by
  cases l with
  | nil => simp [insort]
  | cons y ys => by_cases h : x.pval < y.pval <;> simp [insort, h]

lemma sortedP_insort {x : PObj} {l : List PObj} (h : SortedP l) :
    SortedP (insort x l) := by
  induction l with
  | nil => simp [insort, SortedP]
  | cons y ys ih =>
    rcases List.pairwise_cons.mp h with ⟨hy, hys⟩
    by_cases hlt : x.pval < y.pval
    · rw [insort, if_pos hlt]
      refine List.pairwise_cons.mpr ⟨?_, h⟩
      intro b hb
      rcases List.mem_cons.mp hb with rfl | hb
      · exact le_of_lt hlt
      · exact le_trans (le_of_lt hlt) (hy b hb)
    · rw [insort, if_neg hlt]
      refine List.pairwise_cons.mpr ⟨?_, ih hys⟩
      intro b hb
      rcases mem_insort.mp hb with rfl | hb
      · omega
      · exact hy b hb

section Assoc

variable {α : Type} [DecidableEq α] {β : Type}

/-- First-match association-list lookup, the embedding of Python
dictionary access (`d.get(k)` / `d[k]`). -/
def lookupA (k : α) : List (α × β) → Option β
  | [] => none
  | e :: m => if e.1 = k then some e.2 else lookupA k m

/-- Python `d[k] = v`: replace the binding in place when the key exists,
append a new binding otherwise (dict insertion order). -/
def aupd (k : α) (v : β) : List (α × β) → List (α × β)
  | [] => [(k, v)]
  | e :: m => if e.1 = k then (k, v) :: m else e :: aupd k v m

/-- Python `del d[k]`: drop the binding of `k` (keys are unique in a
dict; on the embedding side this drops the first matching binding). -/
def adel (k : α) : List (α × β) → List (α × β)
  | [] => []
  | e :: m => if e.1 = k then m else e :: adel k m

/-- Replace the value stored under `k` by `f` of it (no-op if absent). -/
def amodify (k : α) (f : β → β) : List (α × β) → List (α × β)
  | [] => []
  | e :: m => if e.1 = k then (e.1, f e.2) :: m else e :: amodify k f m

@[simp] lemma lookupA_nil (k : α) : lookupA k ([] : List (α × β)) = none := rfl

lemma lookupA_cons (k : α) (e : α × β) (m : List (α × β)) :
    lookupA k (e :: m) = if e.1 = k then some e.2 else lookupA k m := rfl

lemma lookupA_eq_none_iff {k : α} {m : List (α × β)} :
    lookupA k m = none ↔ k ∉ m.map Prod.fst := by
  induction m with
  | nil => simp
  | cons e m ih =>
    by_cases h : e.1 = k
    · simp [lookupA, h]
    · simp [lookupA, h, Ne.symm h, ih]

lemma lookupA_isSome_iff {k : α} {m : List (α × β)} :
    (lookupA k m).isSome = true ↔ k ∈ m.map Prod.fst := by
  rw [Option.isSome_iff_ne_none, Ne, lookupA_eq_none_iff]
  exact not_not

lemma mem_of_lookupA {k : α} {v : β} {m : List (α × β)}
    (h : lookupA k m = some v) : (k, v) ∈ m := by
  induction m with
  | nil => simp [lookupA] at h
  | cons e m ih =>
    by_cases he : e.1 = k
    · rw [lookupA, if_pos he] at h
      have hv : e.2 = v := Option.some_inj.mp h
      have hkv : (k, v) = e := by
        cases e
        simp_all
      rw [hkv]
      exact List.mem_cons_self e m
    · rw [lookupA, if_neg he] at h
      exact List.mem_cons_of_mem _ (ih h)

lemma lookupA_of_mem_nodup {k : α} {v : β} {m : List (α × β)}
    (hnd : (m.map Prod.fst).Nodup) (h : (k, v) ∈ m) :
    lookupA k m = some v := by
  induction m with
  | nil => simp at h
  | cons e m ih =>
    simp only [List.map_cons, List.nodup_cons] at hnd
    rcases List.mem_cons.mp h with rfl | h
    · simp [lookupA]
    · have hne : e.1 ≠ k := by
        intro hk
        exact hnd.1 (hk ▸ (List.mem_map.mpr ⟨(k, v), h, rfl⟩))
      simp [lookupA, hne, ih hnd.2 h]

lemma keys_amodify (k : α) (f : β → β) (m : List (α × β)) :
    (amodify k f m).map Prod.fst = m.map Prod.fst := by
  induction m with
  | nil => rfl
  | cons e m ih => by_cases h : e.1 = k <;> simp [amodify, h, ih]

lemma amodify_eq_map_nodup {k : α} {f : β → β} {m : List (α × β)}
    (hnd : (m.map Prod.fst).Nodup) :
    amodify k f m = m.map (fun e => if e.1 = k then (e.1, f e.2) else e) := by
  induction m with
  | nil => rfl
  | cons e m ih =>
    simp only [List.map_cons, List.nodup_cons] at hnd
    by_cases h : e.1 = k
    · have hm : m.map (fun x => if x.1 = k then (x.1, f x.2) else x) = m := by
        have hall : ∀ x ∈ m, (if x.1 = k then (x.1, f x.2) else x) = x := by
          intro x hx
          have hne : x.1 ≠ k := by
            intro hk
            apply hnd.1
            rw [h, ← hk]
            exact List.mem_map_of_mem Prod.fst hx
          simp [hne]
        calc m.map (fun x => if x.1 = k then (x.1, f x.2) else x)
            = m.map id := List.map_congr_left hall
          _ = m := List.map_id m
      simp [amodify, h, hm]
    · simp [amodify, h, ih hnd.2]

@[simp] lemma lookupA_aupd_self (k : α) (v : β) (m : List (α × β)) :
    lookupA k (aupd k v m) = some v := by
  induction m with
  | nil => simp [aupd, lookupA]
  | cons e m ih => by_cases h : e.1 = k <;> simp [aupd, lookupA, h, ih]

lemma lookupA_aupd_ne {a k : α} (hne : a ≠ k) (v : β) (m : List (α × β)) :
    lookupA a (aupd k v m) = lookupA a m := by
  have h2 : ¬ (k = a) := fun hh => hne hh.symm
  induction m with
  | nil => simp [aupd, lookupA, h2]
  | cons e m ih =>
    by_cases h : e.1 = k
    · simp [aupd, lookupA, h, h2]
    · by_cases h3 : e.1 = a <;> simp [aupd, lookupA, h, h3, h2, hne, ih]

lemma keys_aupd (k : α) (v : β) (m : List (α × β)) :
    (aupd k v m).map Prod.fst =
      if k ∈ m.map Prod.fst then m.map Prod.fst else m.map Prod.fst ++ [k] := by
  induction m with
  | nil => simp [aupd]
  | cons e m ih =>
    by_cases h : e.1 = k
    · simp [aupd, h]
    · have : ¬ (k = e.1) := fun hh => h hh.symm
      by_cases h2 : k ∈ m.map Prod.fst <;> simp [aupd, h, h2, this, ih]

lemma nodup_keys_aupd {k : α} {v : β} {m : List (α × β)}
    (hnd : (m.map Prod.fst).Nodup) : ((aupd k v m).map Prod.fst).Nodup := by
  rw [keys_aupd]
  by_cases hmem : k ∈ m.map Prod.fst
  · simpa [hmem]
  · simp only [hmem, if_false]
    refine List.Nodup.append hnd (List.nodup_singleton k) ?_
    intro a ha hb
    rw [List.mem_singleton] at hb
    subst hb
    exact hmem ha

lemma mem_aupd_nodup {a k : α} {b v : β} {m : List (α × β)}
    (hnd : (m.map Prod.fst).Nodup) :
    (a, b) ∈ aupd k v m ↔ (a = k ∧ b = v) ∨ (a ≠ k ∧ (a, b) ∈ m) := by
  induction m with
  | nil =>
    constructor
    · intro hm
      have heq : (a, b) = (k, v) := by simpa [aupd] using hm
      exact Or.inl ⟨congrArg Prod.fst heq, congrArg Prod.snd heq⟩
    · rintro (⟨rfl, rfl⟩ | ⟨hak, hm⟩)
      · simp [aupd]
      · simp at hm
  | cons e m ih =>
    simp only [List.map_cons, List.nodup_cons] at hnd
    have hkey : ∀ x ∈ m, x.1 ≠ e.1 := by
      intro x hx hxe
      exact hnd.1 (hxe ▸ List.mem_map_of_mem Prod.fst hx)
    by_cases h : e.1 = k
    · subst h
      rw [aupd, if_pos rfl]
      constructor
      · intro hm
        rcases List.mem_cons.mp hm with heq | hm2
        · exact Or.inl ⟨congrArg Prod.fst heq, congrArg Prod.snd heq⟩
        · refine Or.inr ⟨?_, List.mem_cons_of_mem e hm2⟩
          intro hae
          exact (hkey _ hm2) (by rw [← hae])
      · rintro (⟨rfl, rfl⟩ | ⟨hak, hm2⟩)
        · exact List.mem_cons_self _ _
        · rcases List.mem_cons.mp hm2 with heq | hm3
          · exact absurd (congrArg Prod.fst heq) hak
          · exact List.mem_cons_of_mem _ hm3
    · rw [aupd, if_neg h]
      constructor
      · intro hm
        rcases List.mem_cons.mp hm with heq | hm2
        · refine Or.inr ⟨?_, List.mem_cons.mpr (Or.inl heq)⟩
          intro hak
          exact h (by rw [← congrArg Prod.fst heq, hak])
        · rcases (ih hnd.2).mp hm2 with hc | ⟨hak, hm3⟩
          · exact Or.inl hc
          · exact Or.inr ⟨hak, List.mem_cons_of_mem e hm3⟩
      · rintro (⟨rfl, rfl⟩ | ⟨hak, hm2⟩)
        · exact List.mem_cons_of_mem e ((ih hnd.2).mpr (Or.inl ⟨rfl, rfl⟩))
        · rcases List.mem_cons.mp hm2 with heq | hm3
          · exact List.mem_cons.mpr (Or.inl heq)
          · exact List.mem_cons_of_mem e ((ih hnd.2).mpr (Or.inr ⟨hak, hm3⟩))

lemma adel_sublist (k : α) (m : List (α × β)) : (adel k m).Sublist m := by
  induction m with
  | nil => simp [adel]
  | cons e m ih =>
    by_cases h : e.1 = k
    · simpa [adel, h] using List.sublist_cons_self e m
    · simpa [adel, h] using List.Sublist.cons₂ e ih

lemma nodup_keys_adel {k : α} {m : List (α × β)}
    (hnd : (m.map Prod.fst).Nodup) : ((adel k m).map Prod.fst).Nodup :=
  List.Nodup.sublist (List.Sublist.map Prod.fst (adel_sublist k m)) hnd

lemma adel_eq_filter_nodup {k : α} {m : List (α × β)}
    (hnd : (m.map Prod.fst).Nodup) :
    adel k m = m.filter (fun e => decide (e.1 ≠ k)) := by
  induction m with
  | nil => rfl
  | cons e m ih =>
    simp only [List.map_cons, List.nodup_cons] at hnd
    by_cases h : e.1 = k
    · have hfe : ∀ x ∈ m, decide (x.1 ≠ k) = true := by
        intro x hx
        simp only [decide_eq_true_iff]
        intro hk
        apply hnd.1
        rw [h, ← hk]
        exact List.mem_map_of_mem Prod.fst hx
      rw [adel, if_pos h, List.filter_cons_of_neg (by simp [h])]
      exact (List.filter_eq_self.mpr hfe).symm
    · rw [adel, if_neg h, ih hnd.2, List.filter_cons_of_pos (by simp [h])]

lemma mem_adel_nodup {a k : α} {b : β} {m : List (α × β)}
    (hnd : (m.map Prod.fst).Nodup) :
    (a, b) ∈ adel k m ↔ (a, b) ∈ m ∧ a ≠ k := by
  rw [adel_eq_filter_nodup hnd, List.mem_filter]
  simp

lemma lookupA_amodify_self (k : α) (f : β → β) (m : List (α × β)) :
    lookupA k (amodify k f m) = (lookupA k m).map f := by
  induction m with
  | nil => simp [amodify]
  | cons e m ih => by_cases h : e.1 = k <;> simp [amodify, lookupA, h, ih]

lemma lookupA_amodify_ne {a k : α} (hne : a ≠ k) (f : β → β)
    (m : List (α × β)) : lookupA a (amodify k f m) = lookupA a m := by
  have h2 : ¬ (k = a) := fun hh => hne hh.symm
  induction m with
  | nil => simp [amodify]
  | cons e m ih =>
    by_cases h : e.1 = k
    · simp [amodify, lookupA, h, h2, ih]
    · by_cases h3 : e.1 = a <;> simp [amodify, lookupA, h, h3, h2, hne, ih]

lemma lookupA_append (k : α) (m1 m2 : List (α × β)) :
    lookupA k (m1 ++ m2) =
      match lookupA k m1 with
      | some v => some v
      | none => lookupA k m2 := by
  induction m1 with
  | nil => simp [lookupA]
  | cons e m ih => by_cases h : e.1 = k <;> simp [lookupA, h, ih]

/-- Folding `amodify` over a key-disjoint list of keys is a single map
touching exactly the listed keys. -/
lemma foldl_amodify_map {ks : List α} {f : β → β} {m : List (α × β)}
    (hks : ks.Nodup) (hnd : (m.map Prod.fst).Nodup) :
    ks.foldl (fun acc p => amodify p f acc) m =
      m.map (fun e => if e.1 ∈ ks then (e.1, f e.2) else e) := by
  induction ks generalizing m with
  | nil =>
    simp only [List.foldl_nil, List.not_mem_nil, if_false]
    exact (List.map_id m).symm
  | cons p ks ih =>
    simp only [List.nodup_cons] at hks
    rw [List.foldl_cons, amodify_eq_map_nodup hnd,
      ih hks.2 (by rw [← amodify_eq_map_nodup hnd, keys_amodify]; exact hnd),
      List.map_map]
    apply List.map_congr_left
    intro e _
    by_cases h1 : e.1 = p
    · simp [h1, hks.1]
    · by_cases h2 : e.1 ∈ ks <;> simp [Function.comp, h1, h2]

end Assoc

/-- Python truthiness for node values, used by the `if not parent:`
test in `digraph.add`. -/
class PyFalsy (α : Type) where
  falsy : α → Bool

instance : PyFalsy String := ⟨fun s => s.isEmpty⟩

instance : PyFalsy Nat := ⟨fun n => n == 0⟩

instance : PyFalsy Int := ⟨fun n => n == 0⟩

/-- The per-node entry of `digraph.nodes`: the tuple
`( { child : priority-list } , { parent : priority-list } , node )`. -/
structure NodeData (α : Type) where
  children : List (α × List PObj)
  parents : List (α × List PObj)
  payload : α
deriving DecidableEq, Repr

/-- The state of a `digraph` instance: the `nodes` dictionary (keyed by
node, in dict insertion order) and the `order` list. -/
structure Digraph (α : Type) where
  nodes : List (α × NodeData α)
  order : List α
deriving DecidableEq, Repr

namespace Digraph

variable {α : Type} [DecidableEq α]

/-- `digraph.__init__`: the empty graph. -/
def emptyG : Digraph α := ⟨[], []⟩

/-- `node in self.nodes` (used by `contains` / `__contains__`). -/
def contains (g : Digraph α) (n : α) : Bool :=
  (lookupA n g.nodes).isSome

/-- The first half of `digraph.add` (also run for the parent argument):
`if node not in self.nodes: self.nodes[node] = ({}, {}, node);
self.order.append(node)`. -/
def ensureNode (g : Digraph α) (n : α) : Digraph α :=
  match lookupA n g.nodes with
  | some _ => g
  | none => ⟨g.nodes ++ [(n, ⟨[], [], n⟩)], g.order ++ [n]⟩

/-- Store priority list `l` as the shared edge list of (node → parent):
`self.nodes[node][1][parent] = l` followed by
`self.nodes[parent][0][node] = l`.  In the source the two entries hold
the same mutable list object; the embedding writes the value to both
views. -/
def setEdge (g : Digraph α) (node p : α) (l : List PObj) : Digraph α :=
  ⟨amodify p (fun d => { d with children := aupd node l d.children })
      (amodify node (fun d => { d with parents := aupd p l d.parents }) g.nodes),
    g.order⟩

/-- `priorities = self.nodes[node][1].get(parent)`: the shared priority
list of the edge (node → parent); the `priorities is None` case (a fresh
empty shared list is created and stored in both views) is folded into
the empty list. -/
def edgePris (g : Digraph α) (node p : α) : List PObj :=
  ((lookupA node g.nodes).bind (fun d => lookupA p d.parents)).getD []

/-- The negation of `not priorities or priorities[-1] is not priority`:
the insertion is skipped exactly when the list is nonempty and its last
element is the identical object. -/
def lastIsSame (l : List PObj) (pr : PObj) : Bool :=
  match l.getLast? with
  | none => false
  | some q => q.pid == pr.pid

/-- The edge-insertion tail of `digraph.add`, after both endpoints
exist: unless skipped, `bisect.insort` the priority into the shared
list (the new list value is stored through both adjacency views). -/
def addEdge (g2 : Digraph α) (node p : α) (priority : PObj) : Digraph α :=
  if lastIsSame (edgePris g2 node p) priority then g2
  else setEdge g2 node p (insort priority (edgePris g2 node p))

/-- `digraph.add(node, parent, priority=0)`.  The parent is `none` for
Python `None`; any other falsy parent value takes the same early-return
path (`if not parent: return`). -/
def add [PyFalsy α] (g : Digraph α) (node : α) (parent : Option α)
    (priority : PObj) : Digraph α :=
  match parent with
  | none => ensureNode g node
  | some p =>
    if PyFalsy.falsy p then ensureNode g node
    else addEdge (ensureNode (ensureNode g node) p) node p priority

/-- Python `list.remove(x)`: drop the first occurrence. -/
def listRemove (x : α) : List α → List α
  | [] => []
  | y :: ys => if y = x then ys else y :: listRemove x ys

/-- The result of an operation that may raise `KeyError(key)`; `raised`
carries the graph state at the moment the exception is raised, so that
the no-mutation-on-failure guarantees can be stated. -/
inductive PyResult (α : Type) where
  | raised (key : α) (state : Digraph α)
  | ok (state : Digraph α)
deriving DecidableEq, Repr

/-- `del self.nodes[parent][0][node]` on one node entry. -/
def delChild (n : α) (dd : NodeData α) : NodeData α :=
  { dd with children := adel n dd.children }

/-- `del self.nodes[child][1][node]` on one node entry. -/
def delParent (n : α) (dd : NodeData α) : NodeData α :=
  { dd with parents := adel n dd.parents }

/-- The deletion loops shared by `digraph.remove` and
`digraph.difference_update`:
`for parent in self.nodes[node][1]: del self.nodes[parent][0][node]`,
`for child in self.nodes[node][0]: del self.nodes[child][1][node]`,
then `del self.nodes[node]`. -/
def removeNodes (ns : List (α × NodeData α)) (n : α) (d : NodeData α) :
    List (α × NodeData α) :=
  adel n
    (d.children.foldl (fun acc c => amodify c.1 (delParent n) acc)
      (d.parents.foldl (fun acc p => amodify p.1 (delChild n) acc) ns))

/-- `digraph.remove(node)`: raises `KeyError(node)` when absent. -/
def remove (g : Digraph α) (n : α) : PyResult α :=
  match lookupA n g.nodes with
  | none => .raised n g
  | some d => .ok ⟨removeNodes g.nodes n d, listRemove n g.order⟩

/-- `digraph.discard(node)`: `remove` with the `KeyError` swallowed. -/
def discard (g : Digraph α) (n : α) : Digraph α :=
  match remove g n with
  | .raised _ s => s
  | .ok s => s

/-- `digraph.has_edge(child, parent)`: `child in self.nodes[parent][0]`,
with `KeyError` translated to `False`. -/
def hasEdge (g : Digraph α) (child parent : α) : Bool :=
  match lookupA parent g.nodes with
  | none => false
  | some d => (lookupA child d.children).isSome

/-- `digraph.remove_edge(child, parent)`: the two endpoint checks (in
the order `parent`, `child`), the two edge checks, then the two
deletions. -/
def removeEdge (g : Digraph α) (child parent : α) : PyResult α :=
  match lookupA parent g.nodes with
  | none => .raised parent g
  | some dp =>
    match lookupA child g.nodes with
    | none => .raised child g
    | some dc =>
      if (lookupA child dp.children).isNone then .raised child g
      else if (lookupA parent dc.parents).isNone then .raised parent g
      else
        .ok ⟨amodify parent (delChild child)
              (amodify child (delParent parent) g.nodes),
          g.order⟩

/-- The combined entry transformation of a successful `remove_edge`:
`child` leaves `parent`'s children map and `parent` leaves `child`'s
parents map. -/
def edgeDelMap (child parent : α) (e : α × NodeData α) : α × NodeData α :=
  (e.1,
    ⟨if e.1 = parent then adel child e.2.children else e.2.children,
      if e.1 = child then adel parent e.2.parents else e.2.parents,
      e.2.payload⟩)

/-- `digraph.clear()`. -/
def clear (_ : Digraph α) : Digraph α := ⟨[], []⟩

/-- `digraph.update(other)`: replay all of `other`'s nodes and edges.
Note the Python loop rebinds its variable to the stored payload:
`for node in other.order: children, parents, node = other.nodes[node]`. -/
def update [PyFalsy α] (g other : Digraph α) : Digraph α :=
  other.order.foldl
    (fun acc k =>
      match lookupA k other.nodes with
      | none => acc  -- Python would raise KeyError; impossible when `other` is well formed
      | some d =>
        if d.parents.isEmpty then add acc d.payload none ⟨0, 0⟩
        else
          d.parents.foldl
            (fun acc2 pe =>
              pe.2.foldl (fun acc3 pr => add acc3 d.payload (some pe.1) pr) acc2)
            acc)
    g

/-- One step of the `difference_update` loop over `self.order`. -/
def duStep (t : List α) (st : List (α × NodeData α) × List α) (n : α) :
    List (α × NodeData α) × List α :=
  if n ∈ t then
    match lookupA n st.1 with
    | none => st  -- Python would raise KeyError; impossible when the graph is well formed
    | some d => (removeNodes st.1 n d, st.2)
  else (st.1, st.2 ++ [n])

/-- `digraph.difference_update(t)`: bulk removal, rebuilding `order`
once.  Only membership in `t` is used (Python coerces `t` to a
frozenset). -/
def difference_update (g : Digraph α) (t : List α) : Digraph α :=
  let st := g.order.foldl (duStep t) (g.nodes, [])
  ⟨st.1, st.2⟩

/-- `digraph.all_nodes()`: a copy of `order`. -/
def allNodes (g : Digraph α) : List α := g.order

/-- `digraph.is_empty()`. -/
def isEmpty (g : Digraph α) : Bool := g.nodes.isEmpty

/-- `digraph.get(key, default)`: the stored payload, or the default. -/
def getPayload (g : Digraph α) (k : α) (dflt : α) : α :=
  match lookupA k g.nodes with
  | none => dflt
  | some d => d.payload

/-- `digraph.clone()`: node and adjacency maps are rebuilt (keyed by the
stored payload: `for children, parents, node in self.nodes.values():
clone.nodes[node] = ...`); copying the priority lists and the identity
memoisation have no observable content in a pure state. -/
def cloneG (g : Digraph α) : Digraph α :=
  ⟨g.nodes.map (fun e => (e.2.payload, ⟨e.2.children, e.2.parents, e.2.payload⟩)),
    g.order⟩

/-- The polymorphic `ignore_priority` argument: absent, a predicate over
one priority object, or a scalar threshold compared with `<`. -/
inductive IgnorePriority where
  | noFilter
  | pred (f : PObj → Bool)
  | threshold (t : Int)

/-- `priorities[-1]`, the hardest priority of an ascending list.  Python
raises `IndexError` on an empty list; the lists of a well-formed graph
are never empty (see `WF`), and the embedding returns a dummy value. -/
def lastVal (l : List PObj) : Int :=
  match l.getLast? with
  | some q => q.pval
  | none => 0

/-- The per-edge inclusion test used by `child_nodes` / `parent_nodes`
(and, negated over all edges, by `leaf_nodes` / `root_nodes`). -/
def edgeKept (ip : IgnorePriority) (l : List PObj) : Bool :=
  match ip with
  | .noFilter => true
  | .pred f => l.reverse.any (fun pr => !(f pr))
  | .threshold t => decide (t < lastVal l)

/-- `digraph.child_nodes(node, ignore_priority)`.  A missing node raises
`KeyError` in Python; the embedding returns `[]` (every use in the
claims has the node present). -/
def childNodes (g : Digraph α) (n : α) (ip : IgnorePriority) : List α :=
  match lookupA n g.nodes with
  | none => []
  | some d =>
    match ip with
    | .noFilter => d.children.map Prod.fst
    | _ => (d.children.filter (fun e => edgeKept ip e.2)).map Prod.fst

/-- `digraph.parent_nodes(node, ignore_priority)`. -/
def parentNodes (g : Digraph α) (n : α) (ip : IgnorePriority) : List α :=
  match lookupA n g.nodes with
  | none => []
  | some d =>
    match ip with
    | .noFilter => d.parents.map Prod.fst
    | _ => (d.parents.filter (fun e => edgeKept ip e.2)).map Prod.fst

/-- The loop body of `leaf_nodes`: node `n` is kept when every child
edge is ignored (for `noFilter`, when the children dict is empty). -/
def leafTest (g : Digraph α) (ip : IgnorePriority) (n : α) : Bool :=
  match lookupA n g.nodes with
  | none => true
  | some d =>
    match ip with
    | .noFilter => d.children.isEmpty
    | _ => d.children.all (fun e => !(edgeKept ip e.2))

/-- The loop body of `root_nodes`. -/
def rootTest (g : Digraph α) (ip : IgnorePriority) (n : α) : Bool :=
  match lookupA n g.nodes with
  | none => true
  | some d =>
    match ip with
    | .noFilter => d.parents.isEmpty
    | _ => d.parents.all (fun e => !(edgeKept ip e.2))

/-- `digraph.leaf_nodes(ignore_priority)`: every node of `order`, in
order, with no qualifying children. -/
def leafNodes (g : Digraph α) (ip : IgnorePriority) : List α :=
  g.order.filter (leafTest g ip)

/-- `digraph.root_nodes(ignore_priority)`: every node of `order`, in
order, with no qualifying parents. -/
def rootNodes (g : Digraph α) (ip : IgnorePriority) : List α :=
  g.order.filter (rootTest g ip)

/-- One BFS round of `digraph.bfs`: pop the queue head, yield it, and
enqueue the not-yet-enqueued children.  Python computes
`new = set(child_nodes(n, ignore_priority)) - enqueued`, whose
iteration order is hash-dependent; the embedding keeps the first
occurrence order of the children list.  The fuel argument only bounds
the recursion; `bfsFuel` below always exceeds the number of pops. -/
def bfsAux (g : Digraph α) (ip : IgnorePriority) :
    Nat → List (Option α × α) → List α → List (Option α × α)
  | 0, _, _ => []
  | _ + 1, [], _ => []
  | fuel + 1, (pa, n) :: rest, enq =>
    let newNodes := ((childNodes g n ip).filter (fun c => decide (c ∉ enq))).dedup
    (pa, n) ::
      bfsAux g ip fuel (rest ++ newNodes.map (fun c => (some n, c))) (enq ++ newNodes)

/-- An upper bound on the total number of queue pops: every enqueued
element is the start node or one of the children keys of the graph. -/
def bfsFuel (g : Digraph α) : Nat :=
  1 + g.order.length + (g.nodes.map (fun e => e.2.children.length)).sum

/-- `digraph.bfs(start, ignore_priority)`: the finite list of yielded
`(parent-or-None, node)` pairs.  A missing start node raises `KeyError`
in Python; the embedding returns `[]`. -/
def bfs (g : Digraph α) (start : α) (ip : IgnorePriority) :
    List (Option α × α) :=
  if contains g start then bfsAux g ip (bfsFuel g) [(none, start)] [start]
  else []

/-- The consumer loop of `digraph.shortest_path`: thread the `paths`
dictionary over the BFS pairs, returning as soon as `end` is found. -/
def spAux (e : α) : List (Option α × α) → List (Option α × List α) → Option (List α)
  | [], _ => none
  | (pa, c) :: rest, paths =>
    -- paths[parent] always exists: the parent of a yielded pair was
    -- yielded (and recorded) earlier, and the None key is seeded
    let newPath := ((lookupA pa paths).getD []) ++ [c]
    if c = e then some newPath
    else spAux e rest (aupd (some c) newPath paths)

/-- `digraph.shortest_path(start, end, ignore_priority)`.  Missing
endpoints raise `KeyError` in Python; the embedding returns `none`. -/
def shortestPath (g : Digraph α) (s e : α) (ip : IgnorePriority) :
    Option (List α) :=
  if contains g s && contains g e then spAux e (bfs g s ip) [(none, [])]
  else none

/-- One step of the inner loop of `get_cycles`, after the
`shortest_path` call has produced `path`:
`if not shortest_path or len(shortest_path) >= len(path):
shortest_path = path; candidates.append(path)`. -/
def cyclePathStep (st : Option (List α) × List (List α)) (path : List α) :
    Option (List α) × List (List α) :=
  let doUpd :=
    match st.1 with
    | none => true
    | some sp => sp.isEmpty || decide (path.length ≤ sp.length)
  if doUpd then (some path, st.2 ++ [path]) else st

/-- The inner loop of `get_cycles` over one node's qualifying child
edges (children whose `shortest_path` back to the node is `None`
contribute nothing). -/
def cycleStep (g : Digraph α) (ip : IgnorePriority) (n : α)
    (st : Option (List α) × List (List α)) (c : α) :
    Option (List α) × List (List α) :=
  match shortestPath g c n ip with
  | none => st
  | some path => cyclePathStep st path

/-- `not max_length or len(shortest_path) <= max_length`: note that a
`max_length` of 0 is falsy and therefore disables the bound exactly
like `None`. -/
def maxLenOK (ml : Option Nat) (n : Nat) : Bool :=
  match ml with
  | none => true
  | some v => v == 0 || decide (n ≤ v)

/-- The per-node body of `get_cycles`. -/
def getCyclesFor (g : Digraph α) (ip : IgnorePriority) (ml : Option Nat)
    (n : α) : List (List α) :=
  let st := (childNodes g n ip).foldl (cycleStep g ip n) (none, [])
  match st.1 with
  | none => []
  | some spath =>
    if spath.isEmpty then []
    else if maxLenOK ml spath.length then
      st.2.filter (fun p => p.length == spath.length)
    else []

/-- `digraph.get_cycles(ignore_priority, max_length)`: iterate the
nodes dictionary in insertion order, collecting every candidate path
of the final minimum length for each node. -/
def getCycles (g : Digraph α) (ip : IgnorePriority) (ml : Option Nat) :
    List (List α) :=
  ((g.nodes.map Prod.fst).map (getCyclesFor g ip ml)).join

end Digraph

/-- The boolean attributes of a `DepPriority` instance (the relation
flags are inherited from `AbstractDepPriority`; all default to a falsy
value). -/
structure DepPriority where
  cross : Bool := false
  ignored : Bool := false
  optional : Bool := false
  satisfied : Bool := false
  buildtime : Bool := false
  buildtime_slot_op : Bool := false
  runtime : Bool := false
  runtime_post : Bool := false
  runtime_slot_op : Bool := false
deriving DecidableEq, Repr

namespace DepPriority

/-- `DepPriority.__int__`: the integer hardness rank.  Note the source
tests `optional` first, before `buildtime_slot_op`. -/
def toInt (p : DepPriority) : Int :=
  if p.optional then -5
  else if p.buildtime_slot_op then 0
  else if p.buildtime then -1
  else if p.runtime_slot_op then -2
  else if p.runtime then -3
  else if p.runtime_post then -4
  else -6

/-- `DepPriority.__str__`: the display label; `ignored` overrides every
category. -/
def toLabel (p : DepPriority) : String :=
  if p.ignored then "ignored"
  else if p.optional then "optional"
  else if p.buildtime_slot_op then "buildtime_slot_op"
  else if p.buildtime then "buildtime"
  else if p.runtime_slot_op then "runtime_slot_op"
  else if p.runtime then "runtime"
  else if p.runtime_post then "runtime_post"
  else "soft"

/-- The rank function described by the specification: hardest-to-softest
precedence with `buildtime_slot_op` checked first and `optional` sixth.
This follows the spec text (for comparison against `toInt`), not the
source. -/
def specRank (p : DepPriority) : Int :=
  if p.buildtime_slot_op then 0
  else if p.buildtime then -1
  else if p.runtime_slot_op then -2
  else if p.runtime then -3
  else if p.runtime_post then -4
  else if p.optional then -5
  else -6

end DepPriority

/-- The `DepPriority` value with `runtime=True`, as a priority object:
its rank is -3.  (`pid` 0 is an arbitrary object identity.) -/
def RUNTIME : PObj := ⟨0, -3⟩

namespace Digraph

variable {α : Type} [DecidableEq α]

/-- Priority lists are never empty and are kept in ascending order. -/
def goodPris (m : List (α × List PObj)) : Prop :=
  ∀ q ∈ m, q.2 ≠ [] ∧ SortedP q.2

instance (m : List (α × List PObj)) : Decidable (goodPris m) := by
  unfold goodPris; infer_instance

/-- The well-formedness invariant of a digraph state: `nodes` and
`order` list the same keys in the same sequence without duplicates,
payloads equal their keys, adjacency maps have unique keys, every
parents-map entry has the matching children-map entry with the same
(shared) priority list and vice versa, and priority lists are nonempty
and ascending. -/
structure WF (g : Digraph α) : Prop where
  keysEq : g.nodes.map Prod.fst = g.order
  nodupOrder : g.order.Nodup
  payloadEq : ∀ e ∈ g.nodes, e.2.payload = e.1
  nodupChild : ∀ e ∈ g.nodes, (e.2.children.map Prod.fst).Nodup
  nodupParent : ∀ e ∈ g.nodes, (e.2.parents.map Prod.fst).Nodup
  parentChild : ∀ e ∈ g.nodes, ∀ q ∈ e.2.parents,
    ∃ e2 ∈ g.nodes, e2.1 = q.1 ∧ (e.1, q.2) ∈ e2.2.children
  childParent : ∀ e ∈ g.nodes, ∀ q ∈ e.2.children,
    ∃ e2 ∈ g.nodes, e2.1 = q.1 ∧ (e.1, q.2) ∈ e2.2.parents
  prisChild : ∀ e ∈ g.nodes, goodPris e.2.children
  prisParent : ∀ e ∈ g.nodes, goodPris e.2.parents

instance (g : Digraph α) : Decidable (WF g) :=
  decidable_of_iff
    (g.nodes.map Prod.fst = g.order ∧ g.order.Nodup ∧
      (∀ e ∈ g.nodes, e.2.payload = e.1) ∧
      (∀ e ∈ g.nodes, (e.2.children.map Prod.fst).Nodup) ∧
      (∀ e ∈ g.nodes, (e.2.parents.map Prod.fst).Nodup) ∧
      (∀ e ∈ g.nodes, ∀ q ∈ e.2.parents,
        ∃ e2 ∈ g.nodes, e2.1 = q.1 ∧ (e.1, q.2) ∈ e2.2.children) ∧
      (∀ e ∈ g.nodes, ∀ q ∈ e.2.children,
        ∃ e2 ∈ g.nodes, e2.1 = q.1 ∧ (e.1, q.2) ∈ e2.2.parents) ∧
      (∀ e ∈ g.nodes, goodPris e.2.children) ∧
      (∀ e ∈ g.nodes, goodPris e.2.parents))
    (by
      constructor
      · rintro ⟨a, b, c, d, e, f, h, i, j⟩
        exact ⟨a, b, c, d, e, f, h, i, j⟩
      · rintro ⟨a, b, c, d, e, f, h, i, j⟩
        exact ⟨a, b, c, d, e, f, h, i, j⟩)

lemma WF.nodupKeys {g : Digraph α} (hw : WF g) :
    (g.nodes.map Prod.fst).Nodup := hw.keysEq ▸ hw.nodupOrder

lemma wf_empty : WF (emptyG : Digraph α) := by
  constructor <;> simp [emptyG, goodPris]

lemma lookupA_ensure_self (g : Digraph α) (n : α) :
    (lookupA n (ensureNode g n).nodes).isSome = true := by
  unfold ensureNode
  cases h : lookupA n g.nodes with
  | some d => simp [h]
  | none => simp [lookupA_append, h, lookupA]

lemma lookupA_ensure_of_some {g : Digraph α} {k n : α} {d : NodeData α}
    (h : lookupA k g.nodes = some d) :
    lookupA k (ensureNode g n).nodes = some d := by
  unfold ensureNode
  cases h2 : lookupA n g.nodes with
  | some d2 => simpa [h2] using h
  | none => simp [lookupA_append, h]

lemma ensure_of_contains {g : Digraph α} {n : α}
    (h : contains g n = true) : ensureNode g n = g := by
  unfold contains at h
  unfold ensureNode
  cases h2 : lookupA n g.nodes with
  | some d => rfl
  | none => rw [h2] at h; simp at h

lemma wf_ensure {g : Digraph α} (hw : WF g) (n : α) : WF (ensureNode g n) := by
  unfold ensureNode
  cases h : lookupA n g.nodes with
  | some d => exact hw
  | none =>
    have hn : n ∉ g.nodes.map Prod.fst := lookupA_eq_none_iff.mp h
    constructor
    · simp [hw.keysEq]
    · rw [List.nodup_append]
      refine ⟨hw.nodupOrder, List.nodup_singleton n, ?_⟩
      intro a ha hb
      rw [List.mem_singleton] at hb
      subst hb
      exact hn (hw.keysEq ▸ ha)
    · intro e he
      rcases List.mem_append.mp he with he | he
      · exact hw.payloadEq e he
      · rw [List.mem_singleton] at he
        subst he
        rfl
    · intro e he
      rcases List.mem_append.mp he with he | he
      · exact hw.nodupChild e he
      · rw [List.mem_singleton] at he
        subst he
        simp
    · intro e he
      rcases List.mem_append.mp he with he | he
      · exact hw.nodupParent e he
      · rw [List.mem_singleton] at he
        subst he
        simp
    · intro e he q hq
      rcases List.mem_append.mp he with he | he
      · obtain ⟨e2, he2, hk, hm⟩ := hw.parentChild e he q hq
        exact ⟨e2, List.mem_append_left _ he2, hk, hm⟩
      · rw [List.mem_singleton] at he
        subst he
        simp at hq
    · intro e he q hq
      rcases List.mem_append.mp he with he | he
      · obtain ⟨e2, he2, hk, hm⟩ := hw.childParent e he q hq
        exact ⟨e2, List.mem_append_left _ he2, hk, hm⟩
      · rw [List.mem_singleton] at he
        subst he
        simp at hq
    · intro e he
      rcases List.mem_append.mp he with he | he
      · exact hw.prisChild e he
      · rw [List.mem_singleton] at he
        subst he
        simp [goodPris]
    · intro e he
      rcases List.mem_append.mp he with he | he
      · exact hw.prisParent e he
      · rw [List.mem_singleton] at he
        subst he
        simp [goodPris]

/-- The combined entry transformation performed by `setEdge`: the
children map is touched exactly on the `parent` entry and the parents
map exactly on the `node` entry. -/
def setEdgeMap (node p : α) (l : List PObj) (e : α × NodeData α) :
    α × NodeData α :=
  (e.1,
    ⟨if e.1 = p then aupd node l e.2.children else e.2.children,
      if e.1 = node then aupd p l e.2.parents else e.2.parents,
      e.2.payload⟩)

lemma setEdge_nodes_eq {g : Digraph α} (hnd : (g.nodes.map Prod.fst).Nodup)
    (node p : α) (l : List PObj) :
    (setEdge g node p l).nodes = g.nodes.map (setEdgeMap node p l) := by
  unfold setEdge
  rw [amodify_eq_map_nodup hnd]
  have hkeys :
      ((g.nodes.map (fun e => if e.1 = node then
          (e.1, { e.2 with parents := aupd p l e.2.parents }) else e)).map Prod.fst).Nodup := by
    rw [List.map_map]
    have : (Prod.fst ∘ fun (e : α × NodeData α) => if e.1 = node then
        (e.1, { e.2 with parents := aupd p l e.2.parents }) else e) = Prod.fst := by
      funext e
      by_cases h : e.1 = node <;> simp [Function.comp, h]
    rw [this]
    exact hnd
  rw [amodify_eq_map_nodup hkeys, List.map_map]
  apply List.map_congr_left
  rintro ⟨k, d⟩ _
  by_cases h1 : k = node
  · subst h1
    by_cases h2 : k = p
    · subst h2
      simp [Function.comp, setEdgeMap]
    · simp [Function.comp, setEdgeMap, h2]
  · by_cases h2 : k = p
    · subst h2
      simp [Function.comp, setEdgeMap, h1]
    · simp [Function.comp, setEdgeMap, h1, h2]

lemma wf_setEdge {g : Digraph α} (hw : WF g) {node p : α}
    {dn dp : NodeData α} (hn : lookupA node g.nodes = some dn)
    (hp : lookupA p g.nodes = some dp) {l : List PObj} (hlne : l ≠ [])
    (hls : SortedP l) : WF (setEdge g node p l) := by
  have hnodes := setEdge_nodes_eq hw.nodupKeys node p l
  have hfst : ∀ e : α × NodeData α, (setEdgeMap node p l e).1 = e.1 := by
    intro e
    rfl
  have hkeys : (setEdge g node p l).nodes.map Prod.fst = g.nodes.map Prod.fst := by
    rw [hnodes, List.map_map]
    apply List.map_congr_left
    intro e _
    exact hfst e
  have horder : (setEdge g node p l).order = g.order := rfl
  have hmemn : (node, dn) ∈ g.nodes := mem_of_lookupA hn
  have hmemp : (p, dp) ∈ g.nodes := mem_of_lookupA hp
  -- the entry with key `node` is exactly (node, dn), same for p
  have huniq : ∀ e ∈ g.nodes, e.1 = node → e.2 = dn := by
    intro e he h1
    have := lookupA_of_mem_nodup hw.nodupKeys (by
      have : e = (e.1, e.2) := rfl
      rw [this] at he
      exact he)
    rw [h1, hn] at this
    exact (Option.some_inj.mp this).symm
  have huniqp : ∀ e ∈ g.nodes, e.1 = p → e.2 = dp := by
    intro e he h1
    have := lookupA_of_mem_nodup hw.nodupKeys (by
      have : e = (e.1, e.2) := rfl
      rw [this] at he
      exact he)
    rw [h1, hp] at this
    exact (Option.some_inj.mp this).symm
  constructor
  · rw [hkeys, horder, hw.keysEq]
  · rw [horder]
    exact hw.nodupOrder
  · intro e he
    rw [hnodes] at he
    obtain ⟨e0, he0, rfl⟩ := List.mem_map.mp he
    exact hw.payloadEq e0 he0
  · intro e he
    rw [hnodes] at he
    obtain ⟨e0, he0, rfl⟩ := List.mem_map.mp he
    simp only [setEdgeMap]
    by_cases h2 : e0.1 = p
    · simpa [h2] using nodup_keys_aupd (hw.nodupChild e0 he0)
    · simpa [h2] using hw.nodupChild e0 he0
  · intro e he
    rw [hnodes] at he
    obtain ⟨e0, he0, rfl⟩ := List.mem_map.mp he
    simp only [setEdgeMap]
    by_cases h1 : e0.1 = node
    · simpa [h1] using nodup_keys_aupd (hw.nodupParent e0 he0)
    · simpa [h1] using hw.nodupParent e0 he0
  · -- parentChild
    intro e he q hq
    rw [hnodes] at he ⊢
    obtain ⟨e0, he0, rfl⟩ := List.mem_map.mp he
    simp only [setEdgeMap] at hq ⊢
    by_cases h1 : e0.1 = node
    · rw [if_pos h1] at hq
      have he0d : e0.2 = dn := huniq e0 he0 h1
      rw [he0d] at hq
      rcases (mem_aupd_nodup (hw.nodupParent _ hmemn)).mp hq with ⟨hq1, hq2⟩ | ⟨hq1, hq2⟩
      · -- the freshly written edge entry: its partner is the p entry
        refine ⟨setEdgeMap node p l (p, dp), List.mem_map_of_mem _ hmemp, ?_, ?_⟩
        · rw [hfst, hq1]
        · simp only [setEdgeMap, if_pos rfl]
          rw [h1, hq2]
          exact (mem_aupd_nodup (hw.nodupChild _ hmemp)).mpr (Or.inl ⟨rfl, rfl⟩)
      · obtain ⟨e2, he2, hk, hm⟩ := hw.parentChild e0 he0 q (he0d ▸ hq2)
        refine ⟨setEdgeMap node p l e2, List.mem_map_of_mem _ he2, ?_, ?_⟩
        · rw [hfst, hk]
        · simp only [setEdgeMap]
          have h2 : e2.1 ≠ p := by rw [hk]; exact hq1
          rw [if_neg h2]
          exact hm
    · rw [if_neg h1] at hq
      obtain ⟨e2, he2, hk, hm⟩ := hw.parentChild e0 he0 q hq
      refine ⟨setEdgeMap node p l e2, List.mem_map_of_mem _ he2, ?_, ?_⟩
      · rw [hfst, hk]
      · simp only [setEdgeMap]
        by_cases h2 : e2.1 = p
        · rw [if_pos h2]
          exact (mem_aupd_nodup (hw.nodupChild e2 he2)).mpr (Or.inr ⟨h1, hm⟩)
        · rw [if_neg h2]
          exact hm
  · -- childParent
    intro e he q hq
    rw [hnodes] at he ⊢
    obtain ⟨e0, he0, rfl⟩ := List.mem_map.mp he
    simp only [setEdgeMap] at hq ⊢
    by_cases h2 : e0.1 = p
    · rw [if_pos h2] at hq
      have he0d : e0.2 = dp := huniqp e0 he0 h2
      rw [he0d] at hq
      rcases (mem_aupd_nodup (hw.nodupChild _ hmemp)).mp hq with ⟨hq1, hq2⟩ | ⟨hq1, hq2⟩
      · refine ⟨setEdgeMap node p l (node, dn), List.mem_map_of_mem _ hmemn, ?_, ?_⟩
        · rw [hfst, hq1]
        · simp only [setEdgeMap, if_pos rfl]
          rw [h2, hq2]
          exact (mem_aupd_nodup (hw.nodupParent _ hmemn)).mpr (Or.inl ⟨rfl, rfl⟩)
      · obtain ⟨e2, he2, hk, hm⟩ := hw.childParent e0 he0 q (he0d ▸ hq2)
        refine ⟨setEdgeMap node p l e2, List.mem_map_of_mem _ he2, ?_, ?_⟩
        · rw [hfst, hk]
        · simp only [setEdgeMap]
          have h1 : e2.1 ≠ node := by rw [hk]; exact hq1
          rw [if_neg h1]
          exact hm
    · rw [if_neg h2] at hq
      obtain ⟨e2, he2, hk, hm⟩ := hw.childParent e0 he0 q hq
      refine ⟨setEdgeMap node p l e2, List.mem_map_of_mem _ he2, ?_, ?_⟩
      · rw [hfst, hk]
      · simp only [setEdgeMap]
        by_cases h1 : e2.1 = node
        · rw [if_pos h1]
          exact (mem_aupd_nodup (hw.nodupParent e2 he2)).mpr (Or.inr ⟨h2, hm⟩)
        · rw [if_neg h1]
          exact hm
  · -- prisChild
    intro e he
    rw [hnodes] at he
    obtain ⟨e0, he0, rfl⟩ := List.mem_map.mp he
    simp only [setEdgeMap]
    by_cases h2 : e0.1 = p
    · rw [if_pos h2]
      intro q hq
      rcases (mem_aupd_nodup (hw.nodupChild e0 he0)).mp hq with ⟨_, hq2⟩ | ⟨_, hq2⟩
      · rw [hq2]
        exact ⟨hlne, hls⟩
      · exact hw.prisChild e0 he0 q hq2
    · rw [if_neg h2]
      exact hw.prisChild e0 he0
  · -- prisParent
    intro e he
    rw [hnodes] at he
    obtain ⟨e0, he0, rfl⟩ := List.mem_map.mp he
    simp only [setEdgeMap]
    by_cases h1 : e0.1 = node
    · rw [if_pos h1]
      intro q hq
      rcases (mem_aupd_nodup (hw.nodupParent e0 he0)).mp hq with ⟨_, hq2⟩ | ⟨_, hq2⟩
      · rw [hq2]
        exact ⟨hlne, hls⟩
      · exact hw.prisParent e0 he0 q hq2
    · rw [if_neg h1]
      exact hw.prisParent e0 he0

lemma sortedP_edgePris {g : Digraph α} (hw : WF g) (node p : α) :
    SortedP (edgePris g node p) := by
  unfold edgePris
  cases hn : lookupA node g.nodes with
  | none => simp [SortedP]
  | some d =>
    simp only [Option.some_bind]
    cases hp : lookupA p d.parents with
    | none => simp [SortedP]
    | some l =>
      simpa using (hw.prisParent (node, d) (mem_of_lookupA hn) (p, l)
        (mem_of_lookupA hp)).2

lemma wf_addEdge {g : Digraph α} (hw : WF g) {node p : α}
    {dn dp : NodeData α} (hn : lookupA node g.nodes = some dn)
    (hp : lookupA p g.nodes = some dp) (pr : PObj) :
    WF (addEdge g node p pr) := by
  unfold addEdge
  by_cases h : lastIsSame (edgePris g node p) pr = true
  · rw [if_pos h]
    exact hw
  · rw [if_neg h]
    exact wf_setEdge hw hn hp (insort_ne_nil _ _)
      (sortedP_insort (sortedP_edgePris hw node p))

lemma wf_add [PyFalsy α] {g : Digraph α} (hw : WF g) (node : α)
    (parent : Option α) (pr : PObj) : WF (add g node parent pr) := by
  unfold add
  cases parent with
  | none => exact wf_ensure hw node
  | some p =>
    show WF (if PyFalsy.falsy p = true then ensureNode g node
      else addEdge (ensureNode (ensureNode g node) p) node p pr)
    by_cases hf : PyFalsy.falsy p = true
    · rw [if_pos hf]
      exact wf_ensure hw node
    · rw [if_neg hf]
      have hw2 := wf_ensure (wf_ensure hw node) p
      obtain ⟨dn0, hdn0⟩ :=
        Option.isSome_iff_exists.mp (lookupA_ensure_self g node)
      obtain ⟨dp0, hdp0⟩ :=
        Option.isSome_iff_exists.mp (lookupA_ensure_self (ensureNode g node) p)
      exact wf_addEdge hw2 (lookupA_ensure_of_some hdn0) hdp0 pr

/-- Strip the nodes of `l` from an adjacency map. -/
def purgeData (l : List α) (d : NodeData α) : NodeData α :=
  ⟨d.children.filter (fun e => decide (e.1 ∉ l)),
    d.parents.filter (fun e => decide (e.1 ∉ l)),
    d.payload⟩

/-- The net effect of removing every node of `l` from a well-formed
graph: drop their entries and strip them from every adjacency map. -/
def purge (g : Digraph α) (l : List α) : Digraph α :=
  ⟨(g.nodes.filter (fun e => decide (e.1 ∉ l))).map (fun e => (e.1, purgeData l e.2)),
    g.order.filter (fun n => decide (n ∉ l))⟩

lemma purgeData_nil (d : NodeData α) : purgeData [] d = d := by
  cases d
  simp [purgeData]

lemma purge_nil (g : Digraph α) : purge g [] = g := by
  cases g with
  | mk ns ord =>
    unfold purge
    congr 1
    · have hf : ns.filter (fun e => decide (e.1 ∉ ([] : List α))) = ns := by
        apply List.filter_eq_self.mpr
        intro x _
        simp
      rw [hf]
      have : ∀ e ∈ ns, ((e : α × NodeData α).1, purgeData [] e.2) = e := by
        intro e _
        rw [purgeData_nil]
      calc ns.map (fun e => (e.1, purgeData [] e.2)) = ns.map id :=
            List.map_congr_left this
        _ = ns := List.map_id ns
    · simp

lemma keys_purge_list (l : List α) (m : List (α × NodeData α)) :
    ((m.filter (fun e => decide (e.1 ∉ l))).map
        (fun e => (e.1, purgeData l e.2))).map Prod.fst =
      (m.map Prod.fst).filter (fun k => decide (k ∉ l)) := by
  induction m with
  | nil => rfl
  | cons e m ih =>
    simp only [decide_not] at ih
    by_cases h : e.1 ∈ l <;> simp [h, ih]

lemma keys_purge (g : Digraph α) (l : List α) :
    (purge g l).nodes.map Prod.fst =
      (g.nodes.map Prod.fst).filter (fun k => decide (k ∉ l)) :=
  keys_purge_list l g.nodes

lemma lookupA_purge_list (l : List α) (k : α) (m : List (α × NodeData α)) :
    lookupA k ((m.filter (fun e => decide (e.1 ∉ l))).map
        (fun e => (e.1, purgeData l e.2))) =
      if k ∈ l then none else (lookupA k m).map (purgeData l) := by
  induction m with
  | nil => simp
  | cons e m ih =>
    simp only [decide_not] at ih
    by_cases hel : e.1 ∈ l
    · rw [List.filter_cons_of_neg (by simp [hel])]
      by_cases hkl : k ∈ l
      · simp [hkl, ih]
      · have hek : e.1 ≠ k := fun h => hkl (h ▸ hel)
        simp [hkl, lookupA, hek, ih]
    · rw [List.filter_cons_of_pos (by simp [hel]), List.map_cons]
      by_cases hek : e.1 = k
      · subst hek
        simp [lookupA, hel]
      · simp [lookupA, hek, ih]

lemma lookupA_purge (g : Digraph α) (l : List α) (k : α) :
    lookupA k (purge g l).nodes =
      if k ∈ l then none else (lookupA k g.nodes).map (purgeData l) :=
  lookupA_purge_list l k g.nodes

lemma contains_purge (g : Digraph α) (l : List α) (k : α) :
    contains (purge g l) k = (contains g k && decide (k ∉ l)) := by
  unfold contains
  rw [lookupA_purge]
  by_cases hkl : k ∈ l
  · simp [hkl]
  · simp [hkl]

lemma wf_purge {g : Digraph α} (hw : WF g) (l : List α) : WF (purge g l) := by
  have hsubn : ∀ e, e ∈ (purge g l).nodes →
      ∃ e0 ∈ g.nodes, e0.1 ∉ l ∧ e = (e0.1, purgeData l e0.2) := by
    intro e he
    obtain ⟨e0, he0, rfl⟩ := List.mem_map.mp he
    have h1 := List.mem_filter.mp he0
    exact ⟨e0, h1.1, by simpa using h1.2, rfl⟩
  constructor
  · rw [keys_purge, hw.keysEq]
    rfl
  · exact List.Nodup.filter _ hw.nodupOrder
  · intro e he
    obtain ⟨e0, he0, _, rfl⟩ := hsubn e he
    exact hw.payloadEq e0 he0
  · intro e he
    obtain ⟨e0, he0, _, rfl⟩ := hsubn e he
    simp only [purgeData]
    exact List.Nodup.sublist (List.Sublist.map Prod.fst (List.filter_sublist _))
      (hw.nodupChild e0 he0)
  · intro e he
    obtain ⟨e0, he0, _, rfl⟩ := hsubn e he
    simp only [purgeData]
    exact List.Nodup.sublist (List.Sublist.map Prod.fst (List.filter_sublist _))
      (hw.nodupParent e0 he0)
  · -- parentChild
    intro e he q hq
    obtain ⟨e0, he0, hel, rfl⟩ := hsubn e he
    simp only [purgeData] at hq
    have h2 := List.mem_filter.mp hq
    have hql : q.1 ∉ l := by simpa using h2.2
    obtain ⟨e2, he2, hk, hm⟩ := hw.parentChild e0 he0 q h2.1
    refine ⟨(e2.1, purgeData l e2.2), ?_, hk, ?_⟩
    · apply List.mem_map_of_mem
      apply List.mem_filter.mpr
      refine ⟨he2, ?_⟩
      rw [hk]
      simpa using hql
    · simp only [purgeData]
      apply List.mem_filter.mpr
      exact ⟨hm, by simpa using hel⟩
  · -- childParent
    intro e he q hq
    obtain ⟨e0, he0, hel, rfl⟩ := hsubn e he
    simp only [purgeData] at hq
    have h2 := List.mem_filter.mp hq
    have hql : q.1 ∉ l := by simpa using h2.2
    obtain ⟨e2, he2, hk, hm⟩ := hw.childParent e0 he0 q h2.1
    refine ⟨(e2.1, purgeData l e2.2), ?_, hk, ?_⟩
    · apply List.mem_map_of_mem
      apply List.mem_filter.mpr
      refine ⟨he2, ?_⟩
      rw [hk]
      simpa using hql
    · simp only [purgeData]
      apply List.mem_filter.mpr
      exact ⟨hm, by simpa using hel⟩
  · intro e he
    obtain ⟨e0, he0, _, rfl⟩ := hsubn e he
    intro q hq
    exact hw.prisChild e0 he0 q (List.mem_filter.mp hq).1
  · intro e he
    obtain ⟨e0, he0, _, rfl⟩ := hsubn e he
    intro q hq
    exact hw.prisParent e0 he0 q (List.mem_filter.mp hq).1

lemma keys_map_pres {β : Type} {f : (α × β) → (α × β)}
    (hf : ∀ e, (f e).1 = e.1) (m : List (α × β)) :
    (m.map f).map Prod.fst = m.map Prod.fst := by
  rw [List.map_map]
  exact List.map_congr_left (fun e _ => hf e)

lemma filter_map_pres {β : Type} {f : (α × β) → (α × β)} {q : (α × β) → Bool}
    (hq : ∀ e, q (f e) = q e) (m : List (α × β)) :
    (m.map f).filter q = (m.filter q).map f := by
  induction m with
  | nil => rfl
  | cons e m ih =>
    rw [List.map_cons]
    by_cases h : q e = true
    · rw [List.filter_cons_of_pos (by rw [hq]; exact h),
        List.filter_cons_of_pos h, List.map_cons, ih]
    · rw [List.filter_cons_of_neg (by rw [hq]; exact h),
        List.filter_cons_of_neg h, ih]

lemma removeNodes_eq_purge {g : Digraph α} (hw : WF g) {n : α}
    {d : NodeData α} (hn : lookupA n g.nodes = some d) :
    removeNodes g.nodes n d = (purge g [n]).nodes := by
  have hmem : (n, d) ∈ g.nodes := mem_of_lookupA hn
  have hndk := hw.nodupKeys
  have hpk : (d.parents.map Prod.fst).Nodup := hw.nodupParent (n, d) hmem
  have hck : (d.children.map Prod.fst).Nodup := hw.nodupChild (n, d) hmem
  have huniq : ∀ e ∈ g.nodes, e.1 = n → e.2 = d := by
    intro e he h1
    have h2 := lookupA_of_mem_nodup hndk (show (e.1, e.2) ∈ g.nodes from he)
    rw [h1, hn] at h2
    exact (Option.some_inj.mp h2).symm
  set f1 := fun x : α × NodeData α =>
    if x.1 ∈ d.parents.map Prod.fst then (x.1, delChild n x.2) else x with hf1def
  set f2 := fun x : α × NodeData α =>
    if x.1 ∈ d.children.map Prod.fst then (x.1, delParent n x.2) else x with hf2def
  have hpres1 : ∀ e : α × NodeData α, (f1 e).1 = e.1 := by
    intro e
    rw [hf1def]
    by_cases h : e.1 ∈ d.parents.map Prod.fst <;> simp [h]
  have hpres2 : ∀ e : α × NodeData α, (f2 e).1 = e.1 := by
    intro e
    rw [hf2def]
    by_cases h : e.1 ∈ d.children.map Prod.fst <;> simp [h]
  -- the two deletion loops, as maps over the whole node list
  have h1 : d.parents.foldl (fun acc p => amodify p.1 (delChild n) acc) g.nodes =
      g.nodes.map f1 := by
    rw [← List.foldl_map Prod.fst
        (fun acc k => amodify k (delChild n) acc) d.parents g.nodes]
    exact foldl_amodify_map hpk hndk
  have hnd1 : ((g.nodes.map f1).map Prod.fst).Nodup := by
    rw [keys_map_pres hpres1]
    exact hndk
  have h2 : d.children.foldl (fun acc c => amodify c.1 (delParent n) acc)
      (g.nodes.map f1) = (g.nodes.map f1).map f2 := by
    rw [← List.foldl_map Prod.fst
        (fun acc k => amodify k (delParent n) acc) d.children (g.nodes.map f1)]
    exact foldl_amodify_map hck hnd1
  have hpresc : ∀ e : α × NodeData α, ((f2 ∘ f1) e).1 = e.1 := by
    intro e
    rw [Function.comp_apply, hpres2, hpres1]
  have hnd2 : (((g.nodes.map (f2 ∘ f1))).map Prod.fst).Nodup := by
    rw [keys_map_pres hpresc]
    exact hndk
  have hqpres : ∀ e : α × NodeData α,
      (fun x : α × NodeData α => decide (x.1 ≠ n)) ((f2 ∘ f1) e) =
        (fun x : α × NodeData α => decide (x.1 ≠ n)) e := by
    intro e
    simp only [hpresc e]
  unfold removeNodes
  rw [h1, h2, List.map_map, adel_eq_filter_nodup hnd2, filter_map_pres hqpres]
  unfold purge
  have hfeq : g.nodes.filter (fun e => decide (e.1 ≠ n)) =
      g.nodes.filter (fun e => decide (e.1 ∉ [n])) := by
    apply List.filter_congr
    intro e _
    simp
  rw [hfeq]
  apply List.map_congr_left
  intro e he
  have hein := List.mem_filter.mp he
  have heg : e ∈ g.nodes := hein.1
  -- componentwise equality on the surviving entries
  have hchildren :
      (if e.1 ∈ d.parents.map Prod.fst then adel n e.2.children else e.2.children) =
        e.2.children.filter (fun c => decide (c.1 ∉ [n])) := by
    have hconv : e.2.children.filter (fun c => decide (c.1 ∉ [n])) =
        e.2.children.filter (fun c => decide (c.1 ≠ n)) := by
      apply List.filter_congr
      intro c _
      simp
    by_cases hp : e.1 ∈ d.parents.map Prod.fst
    · rw [if_pos hp, hconv]
      exact adel_eq_filter_nodup (hw.nodupChild e heg)
    · rw [if_neg hp, hconv]
      symm
      apply List.filter_eq_self.mpr
      intro c hc
      simp only [decide_eq_true_iff]
      intro hcn
      obtain ⟨e2, he2, hk, hm⟩ := hw.childParent e heg c hc
      have he2d : e2.2 = d := huniq e2 he2 (hk.trans hcn)
      apply hp
      have hm2 : (e.1, c.2) ∈ d.parents := he2d ▸ hm
      exact List.mem_map_of_mem Prod.fst hm2
  have hparents :
      (if e.1 ∈ d.children.map Prod.fst then adel n e.2.parents else e.2.parents) =
        e.2.parents.filter (fun c => decide (c.1 ∉ [n])) := by
    have hconv : e.2.parents.filter (fun c => decide (c.1 ∉ [n])) =
        e.2.parents.filter (fun c => decide (c.1 ≠ n)) := by
      apply List.filter_congr
      intro c _
      simp
    by_cases hp : e.1 ∈ d.children.map Prod.fst
    · rw [if_pos hp, hconv]
      exact adel_eq_filter_nodup (hw.nodupParent e heg)
    · rw [if_neg hp, hconv]
      symm
      apply List.filter_eq_self.mpr
      intro c hc
      simp only [decide_eq_true_iff]
      intro hcn
      obtain ⟨e2, he2, hk, hm⟩ := hw.parentChild e heg c hc
      have he2d : e2.2 = d := huniq e2 he2 (hk.trans hcn)
      apply hp
      have hm2 : (e.1, c.2) ∈ d.children := he2d ▸ hm
      exact List.mem_map_of_mem Prod.fst hm2
  have hcomp : (f2 ∘ f1) e =
      (e.1,
        ⟨if e.1 ∈ d.parents.map Prod.fst then adel n e.2.children else e.2.children,
          if e.1 ∈ d.children.map Prod.fst then adel n e.2.parents else e.2.parents,
          e.2.payload⟩) := by
    rw [Function.comp_apply, hf1def, hf2def]
    by_cases hp1 : e.1 ∈ d.parents.map Prod.fst <;>
      by_cases hp2 : e.1 ∈ d.children.map Prod.fst <;>
        simp [hp1, hp2, delChild, delParent]
  rw [hcomp, hchildren, hparents]
  rfl

lemma listRemove_eq_filter {x : α} {l : List α} (hnd : l.Nodup) :
    listRemove x l = l.filter (fun y => decide (y ∉ [x])) := by
  induction l with
  | nil => rfl
  | cons y ys ih =>
    rw [List.nodup_cons] at hnd
    by_cases h : y = x
    · subst h
      rw [listRemove, if_pos rfl, List.filter_cons_of_neg (by simp)]
      symm
      apply List.filter_eq_self.mpr
      intro z hz
      simp only [decide_eq_true_iff, List.mem_singleton]
      intro hzx
      exact hnd.1 (hzx ▸ hz)
    · rw [listRemove, if_neg h, List.filter_cons_of_pos (by simp [h]), ih hnd.2]

lemma remove_ok_eq_purge {g : Digraph α} (hw : WF g) {n : α}
    {d : NodeData α} (hn : lookupA n g.nodes = some d) :
    remove g n = .ok (purge g [n]) := by
  unfold remove
  rw [hn]
  show PyResult.ok (Digraph.mk (removeNodes g.nodes n d) (listRemove n g.order)) =
    PyResult.ok (purge g [n])
  rw [removeNodes_eq_purge hw hn, listRemove_eq_filter hw.nodupOrder]
  rfl

lemma remove_raised_state {g s : Digraph α} {n k : α}
    (h : remove g n = .raised k s) : s = g ∧ k = n := by
  unfold remove at h
  cases hn : lookupA n g.nodes with
  | none =>
    rw [hn] at h
    cases h
    exact ⟨rfl, rfl⟩
  | some d =>
    rw [hn] at h
    cases h

lemma wf_remove_ok {g g' : Digraph α} {n : α} (hw : WF g)
    (h : remove g n = .ok g') : WF g' := by
  unfold remove at h
  cases hn : lookupA n g.nodes with
  | none =>
    rw [hn] at h
    cases h
  | some d =>
    rw [hn] at h
    injection h with h2
    rw [← h2, removeNodes_eq_purge hw hn, listRemove_eq_filter hw.nodupOrder]
    exact wf_purge hw [n]

lemma wf_discard {g : Digraph α} (hw : WF g) (n : α) : WF (discard g n) := by
  unfold discard
  cases h : remove g n with
  | raised k s =>
    rw [(remove_raised_state h).1]
    exact hw
  | ok s => exact wf_remove_ok hw h

lemma purgeData_purgeData (l1 l2 : List α) (d : NodeData α) :
    purgeData l2 (purgeData l1 d) = purgeData (l1 ++ l2) d := by
  unfold purgeData
  simp only [List.filter_filter]
  congr 1
  · apply List.filter_congr
    intro c _
    simp only [decide_not, List.mem_append]
    cases hc1 : decide (c.1 ∈ l1) <;> cases hc2 : decide (c.1 ∈ l2) <;> simp_all
  · apply List.filter_congr
    intro c _
    simp only [decide_not, List.mem_append]
    cases hc1 : decide (c.1 ∈ l1) <;> cases hc2 : decide (c.1 ∈ l2) <;> simp_all

lemma purge_purge (g : Digraph α) (l1 l2 : List α) :
    purge (purge g l1) l2 = purge g (l1 ++ l2) := by
  unfold purge
  congr 1
  · rw [filter_map_pres (by intro e; rfl), List.filter_filter, List.map_map]
    have hpred : ∀ e : α × NodeData α,
        (decide (e.1 ∉ l2) && decide (e.1 ∉ l1)) = decide (e.1 ∉ l1 ++ l2) := by
      intro e
      simp only [decide_not, List.mem_append]
      cases hc1 : decide (e.1 ∈ l1) <;> cases hc2 : decide (e.1 ∈ l2) <;> simp_all
    rw [List.filter_congr (fun e _ => hpred e)]
    apply List.map_congr_left
    intro e _
    simp only [Function.comp_apply]
    rw [purgeData_purgeData]
  · rw [List.filter_filter]
    apply List.filter_congr
    intro k _
    simp only [decide_not, List.mem_append]
    cases hc1 : decide (k ∈ l1) <;> cases hc2 : decide (k ∈ l2) <;> simp_all

/-- Purging is insensitive to list members that never occur as node or
adjacency keys of a well-formed graph. -/
lemma purge_congr {g : Digraph α} (hw : WF g) {l1 l2 : List α}
    (h : ∀ k, k ∈ g.nodes.map Prod.fst → (k ∈ l1 ↔ k ∈ l2)) :
    purge g l1 = purge g l2 := by
  have hadjC : ∀ e ∈ g.nodes, ∀ c ∈ e.2.children, c.1 ∈ g.nodes.map Prod.fst := by
    intro e he c hc
    obtain ⟨e2, he2, hk, _⟩ := hw.childParent e he c hc
    rw [← hk]
    exact List.mem_map_of_mem Prod.fst he2
  have hadjP : ∀ e ∈ g.nodes, ∀ c ∈ e.2.parents, c.1 ∈ g.nodes.map Prod.fst := by
    intro e he c hc
    obtain ⟨e2, he2, hk, _⟩ := hw.parentChild e he c hc
    rw [← hk]
    exact List.mem_map_of_mem Prod.fst he2
  unfold purge
  have hfeq : g.nodes.filter (fun e => decide (e.1 ∉ l1)) =
      g.nodes.filter (fun e => decide (e.1 ∉ l2)) := by
    apply List.filter_congr
    intro e he
    have := h e.1 (List.mem_map_of_mem Prod.fst he)
    simp [this]
  congr 1
  · rw [hfeq]
    apply List.map_congr_left
    intro e he
    have heg : e ∈ g.nodes := (List.mem_filter.mp he).1
    unfold purgeData
    have hc : e.2.children.filter (fun c => decide (c.1 ∉ l1)) =
        e.2.children.filter (fun c => decide (c.1 ∉ l2)) := by
      apply List.filter_congr
      intro c hcm
      have := h c.1 (hadjC e heg c hcm)
      simp [this]
    have hp : e.2.parents.filter (fun c => decide (c.1 ∉ l1)) =
        e.2.parents.filter (fun c => decide (c.1 ∉ l2)) := by
      apply List.filter_congr
      intro c hcm
      have := h c.1 (hadjP e heg c hcm)
      simp [this]
    rw [hc, hp]
  · apply List.filter_congr
    intro k hk
    have := h k (by rw [hw.keysEq]; exact hk)
    simp [this]

lemma du_fold {g : Digraph α} (hw : WF g) (t : List α) :
    ∀ (S L : List α) (ord0 : List α),
      (∀ x ∈ S, x ∈ g.nodes.map Prod.fst) → S.Nodup → (∀ x ∈ S, x ∉ L) →
      S.foldl (duStep t) ((purge g L).nodes, ord0) =
        ((purge g (L ++ S.filter (fun x => decide (x ∈ t)))).nodes,
          ord0 ++ S.filter (fun x => decide (x ∉ t))) := by
  intro S
  induction S with
  | nil =>
    intro L ord0 _ _ _
    simp
  | cons n S ih =>
    intro L ord0 hkeys hnd hdisj
    rw [List.nodup_cons] at hnd
    obtain ⟨dn, hdn⟩ := Option.isSome_iff_exists.mp
      (lookupA_isSome_iff.mpr (hkeys n (List.mem_cons_self n S)))
    have hnL : n ∉ L := hdisj n (List.mem_cons_self n S)
    have hdisj2 : ∀ x ∈ S, x ∉ L := fun x hx => hdisj x (List.mem_cons_of_mem n hx)
    have hkeys2 : ∀ x ∈ S, x ∈ g.nodes.map Prod.fst :=
      fun x hx => hkeys x (List.mem_cons_of_mem n hx)
    by_cases hnt : n ∈ t
    · have hlook : lookupA n (purge g L).nodes = some (purgeData L dn) := by
        rw [lookupA_purge, if_neg hnL, hdn]
        rfl
      have hstep : duStep t ((purge g L).nodes, ord0) n =
          ((purge g (L ++ [n])).nodes, ord0) := by
        unfold duStep
        rw [if_pos hnt, hlook]
        show (removeNodes (purge g L).nodes n (purgeData L dn), ord0) = _
        rw [removeNodes_eq_purge (wf_purge hw L) hlook, purge_purge]
      have hdisj3 : ∀ x ∈ S, x ∉ L ++ [n] := by
        intro x hx
        rw [List.mem_append, List.mem_singleton]
        rintro (hxL | hxn)
        · exact hdisj2 x hx hxL
        · exact hnd.1 (hxn ▸ hx)
      rw [List.foldl_cons, hstep, ih (L ++ [n]) ord0 hkeys2 hnd.2 hdisj3,
        List.filter_cons_of_pos (by simpa using hnt),
        List.filter_cons_of_neg (by simpa using hnt)]
      have happ : L ++ (n :: S.filter (fun x => decide (x ∈ t))) =
          (L ++ [n]) ++ S.filter (fun x => decide (x ∈ t)) := by
        simp
      rw [happ]
    · have hstep : duStep t ((purge g L).nodes, ord0) n =
          ((purge g L).nodes, ord0 ++ [n]) := by
        unfold duStep
        rw [if_neg hnt]
      rw [List.foldl_cons, hstep, ih L (ord0 ++ [n]) hkeys2 hnd.2 hdisj2,
        List.filter_cons_of_neg (by simpa using hnt),
        List.filter_cons_of_pos (by simpa using hnt)]
      have happ : ord0 ++ (n :: S.filter (fun x => decide (x ∉ t))) =
          (ord0 ++ [n]) ++ S.filter (fun x => decide (x ∉ t)) := by
        simp
      rw [happ]

lemma difference_update_eq_purge {g : Digraph α} (hw : WF g) (t : List α) :
    difference_update g t = purge g t := by
  unfold difference_update
  have h0 : (g.nodes, ([] : List α)) = ((purge g []).nodes, ([] : List α)) := by
    rw [purge_nil]
  rw [h0, du_fold hw t g.order [] []
      (by rw [hw.keysEq]; exact fun x hx => hx) hw.nodupOrder (by simp)]
  have hcongr : purge g ([] ++ g.order.filter (fun x => decide (x ∈ t))) =
      purge g t := by
    apply purge_congr hw
    intro k hk
    rw [hw.keysEq] at hk
    simp only [List.nil_append, List.mem_filter, decide_eq_true_iff]
    constructor
    · rintro ⟨_, hkt⟩
      exact hkt
    · intro hkt
      exact ⟨hk, hkt⟩
  rw [hcongr]
  rfl

lemma edgeDel_nodes_eq {g : Digraph α} (hnd : (g.nodes.map Prod.fst).Nodup)
    (child parent : α) :
    amodify parent (delChild child)
        (amodify child (delParent parent) g.nodes) =
      g.nodes.map (edgeDelMap child parent) := by
  rw [amodify_eq_map_nodup hnd]
  have hkeys : ((g.nodes.map (fun e => if e.1 = child then
      (e.1, delParent parent e.2) else e)).map Prod.fst).Nodup := by
    rw [keys_map_pres (fun e => by
      by_cases h : e.1 = child <;> simp [h])]
    exact hnd
  rw [amodify_eq_map_nodup hkeys, List.map_map]
  apply List.map_congr_left
  rintro ⟨k, d⟩ _
  by_cases h1 : k = child
  · subst h1
    by_cases h2 : k = parent
    · subst h2
      simp [Function.comp, edgeDelMap, delChild, delParent]
    · simp [Function.comp, edgeDelMap, delChild, delParent, h2]
  · by_cases h2 : k = parent
    · subst h2
      simp [Function.comp, edgeDelMap, delChild, delParent, h1]
    · simp [Function.comp, edgeDelMap, delChild, delParent, h1, h2]

lemma wf_edgeDel {g : Digraph α} (hw : WF g) (child parent : α) :
    WF (Digraph.mk (g.nodes.map (edgeDelMap child parent)) g.order) := by
  have hfst : ∀ e : α × NodeData α, (edgeDelMap child parent e).1 = e.1 :=
    fun e => rfl
  have huniq : ∀ a, ∀ e ∈ g.nodes, ∀ e2 ∈ g.nodes, e.1 = a → e2.1 = a →
      e.2 = e2.2 := by
    intro a e he e2 he2 h1 h2
    have k1 := lookupA_of_mem_nodup hw.nodupKeys
      (show (e.1, e.2) ∈ g.nodes from he)
    have k2 := lookupA_of_mem_nodup hw.nodupKeys
      (show (e2.1, e2.2) ∈ g.nodes from he2)
    rw [h1] at k1
    rw [h2] at k2
    rw [k1] at k2
    exact Option.some_inj.mp k2
  constructor
  · rw [keys_map_pres hfst]
    exact hw.keysEq
  · exact hw.nodupOrder
  · intro e he
    obtain ⟨e0, he0, rfl⟩ := List.mem_map.mp he
    exact hw.payloadEq e0 he0
  · intro e he
    obtain ⟨e0, he0, rfl⟩ := List.mem_map.mp he
    simp only [edgeDelMap]
    by_cases h2 : e0.1 = parent
    · simpa [h2] using nodup_keys_adel (hw.nodupChild e0 he0)
    · simpa [h2] using hw.nodupChild e0 he0
  · intro e he
    obtain ⟨e0, he0, rfl⟩ := List.mem_map.mp he
    simp only [edgeDelMap]
    by_cases h1 : e0.1 = child
    · simpa [h1] using nodup_keys_adel (hw.nodupParent e0 he0)
    · simpa [h1] using hw.nodupParent e0 he0
  · -- parentChild
    intro e he q hq
    obtain ⟨e0, he0, rfl⟩ := List.mem_map.mp he
    simp only [edgeDelMap] at hq ⊢
    by_cases h1 : e0.1 = child
    · rw [if_pos h1] at hq
      have hq2 := (mem_adel_nodup (hw.nodupParent e0 he0)).mp hq
      obtain ⟨e2, he2, hk, hm⟩ := hw.parentChild e0 he0 q hq2.1
      refine ⟨edgeDelMap child parent e2, List.mem_map_of_mem _ he2, hk, ?_⟩
      simp only [edgeDelMap]
      have h2 : e2.1 ≠ parent := by
        rw [hk]
        exact hq2.2
      rw [if_neg h2]
      exact hm
    · rw [if_neg h1] at hq
      obtain ⟨e2, he2, hk, hm⟩ := hw.parentChild e0 he0 q hq
      refine ⟨edgeDelMap child parent e2, List.mem_map_of_mem _ he2, hk, ?_⟩
      simp only [edgeDelMap]
      by_cases h2 : e2.1 = parent
      · rw [if_pos h2]
        exact (mem_adel_nodup (hw.nodupChild e2 he2)).mpr ⟨hm, h1⟩
      · rw [if_neg h2]
        exact hm
  · -- childParent
    intro e he q hq
    obtain ⟨e0, he0, rfl⟩ := List.mem_map.mp he
    simp only [edgeDelMap] at hq ⊢
    by_cases h2 : e0.1 = parent
    · rw [if_pos h2] at hq
      have hq2 := (mem_adel_nodup (hw.nodupChild e0 he0)).mp hq
      obtain ⟨e2, he2, hk, hm⟩ := hw.childParent e0 he0 q hq2.1
      refine ⟨edgeDelMap child parent e2, List.mem_map_of_mem _ he2, hk, ?_⟩
      simp only [edgeDelMap]
      have h1 : e2.1 ≠ child := by
        rw [hk]
        exact hq2.2
      rw [if_neg h1]
      exact hm
    · rw [if_neg h2] at hq
      obtain ⟨e2, he2, hk, hm⟩ := hw.childParent e0 he0 q hq
      refine ⟨edgeDelMap child parent e2, List.mem_map_of_mem _ he2, hk, ?_⟩
      simp only [edgeDelMap]
      by_cases h1 : e2.1 = child
      · rw [if_pos h1]
        exact (mem_adel_nodup (hw.nodupParent e2 he2)).mpr ⟨hm, h2⟩
      · rw [if_neg h1]
        exact hm
  · intro e he
    obtain ⟨e0, he0, rfl⟩ := List.mem_map.mp he
    simp only [edgeDelMap]
    intro q hq
    by_cases h2 : e0.1 = parent
    · rw [if_pos h2] at hq
      exact hw.prisChild e0 he0 q (List.Sublist.mem hq (adel_sublist _ _))
    · rw [if_neg h2] at hq
      exact hw.prisChild e0 he0 q hq
  · intro e he
    obtain ⟨e0, he0, rfl⟩ := List.mem_map.mp he
    simp only [edgeDelMap]
    intro q hq
    by_cases h1 : e0.1 = child
    · rw [if_pos h1] at hq
      exact hw.prisParent e0 he0 q (List.Sublist.mem hq (adel_sublist _ _))
    · rw [if_neg h1] at hq
      exact hw.prisParent e0 he0 q hq

lemma wf_removeEdge_ok {g g' : Digraph α} {c p : α} (hw : WF g)
    (h : removeEdge g c p = .ok g') : WF g' := by
  unfold removeEdge at h
  cases hp : lookupA p g.nodes with
  | none =>
    rw [hp] at h
    cases h
  | some dp =>
    rw [hp] at h
    cases hc : lookupA c g.nodes with
    | none =>
      rw [hc] at h
      cases h
    | some dc =>
      rw [hc] at h
      replace h : (if (lookupA c dp.children).isNone = true then
            PyResult.raised c g
          else if (lookupA p dc.parents).isNone = true then
            PyResult.raised p g
          else PyResult.ok ⟨amodify p (delChild c)
            (amodify c (delParent p) g.nodes), g.order⟩) = PyResult.ok g' := h
      by_cases h1 : (lookupA c dp.children).isNone = true
      · rw [if_pos h1] at h
        cases h
      · rw [if_neg h1] at h
        by_cases h2 : (lookupA p dc.parents).isNone = true
        · rw [if_pos h2] at h
          cases h
        · rw [if_neg h2] at h
          injection h with h3
          rw [← h3, edgeDel_nodes_eq hw.nodupKeys]
          exact wf_edgeDel hw c p

lemma wf_foldl {β : Type} {f : Digraph α → β → Digraph α}
    (hf : ∀ g b, WF g → WF (f g b)) (l : List β) {g : Digraph α}
    (hw : WF g) : WF (l.foldl f g) := by
  induction l generalizing g with
  | nil => exact hw
  | cons b l ih => exact ih (hf g b hw)

lemma wf_update [PyFalsy α] {g : Digraph α} (hw : WF g)
    (other : Digraph α) : WF (update g other) := by
  unfold update
  apply wf_foldl ?_ other.order hw
  intro acc k hacc
  cases hk : lookupA k other.nodes with
  | none => exact hacc
  | some d =>
    show WF (if d.parents.isEmpty = true then add acc d.payload none ⟨0, 0⟩
      else d.parents.foldl (fun acc2 pe =>
        pe.2.foldl (fun acc3 pr => add acc3 d.payload (some pe.1) pr) acc2) acc)
    by_cases hp : d.parents.isEmpty = true
    · rw [if_pos hp]
      exact wf_add hacc _ _ _
    · rw [if_neg hp]
      apply wf_foldl ?_ d.parents hacc
      intro acc2 pe hacc2
      apply wf_foldl ?_ pe.2 hacc2
      intro acc3 pr hacc3
      exact wf_add hacc3 _ _ _

lemma cloneG_eq_self {g : Digraph α} (hw : WF g) : cloneG g = g := by
  unfold cloneG
  have hmap : g.nodes.map (fun e =>
      (e.2.payload, (⟨e.2.children, e.2.parents, e.2.payload⟩ : NodeData α))) =
      g.nodes := by
    have hall : ∀ e ∈ g.nodes, (e.2.payload,
        (⟨e.2.children, e.2.parents, e.2.payload⟩ : NodeData α)) = e := by
      intro e he
      have hp := hw.payloadEq e he
      cases e with
      | mk k d =>
        cases d
        simp_all
    calc g.nodes.map _ = g.nodes.map id := List.map_congr_left hall
      _ = g.nodes := List.map_id g.nodes
  rw [hmap]

/-- The graphs reachable from the empty graph through the public
mutating operations of the class. -/
inductive Reachable [PyFalsy α] : Digraph α → Prop where
  | empty : Reachable emptyG
  | add (g : Digraph α) (n : α) (parent : Option α) (pr : PObj) :
      Reachable g → Reachable (add g n parent pr)
  | discard (g : Digraph α) (n : α) : Reachable g → Reachable (discard g n)
  | removeOk (g : Digraph α) (n : α) (g' : Digraph α) :
      Reachable g → remove g n = .ok g' → Reachable g'
  | removeEdgeOk (g : Digraph α) (c p : α) (g' : Digraph α) :
      Reachable g → removeEdge g c p = .ok g' → Reachable g'
  | update (g h : Digraph α) :
      Reachable g → Reachable h → Reachable (update g h)
  | clear (h : Digraph α) : Reachable h → Reachable (clear h)
  | diff (g : Digraph α) (t : List α) :
      Reachable g → Reachable (difference_update g t)
  | clone (g : Digraph α) : Reachable g → Reachable (cloneG g)

theorem wf_of_reachable [PyFalsy α] {g : Digraph α} (h : Reachable g) :
    WF g := by
  induction h with
  | empty => exact wf_empty
  | add g n parent pr _ ih => exact wf_add ih n parent pr
  | discard g n _ ih => exact wf_discard ih n
  | removeOk g n g' _ hrm ih => exact wf_remove_ok ih hrm
  | removeEdgeOk g c p g' _ hrm ih => exact wf_removeEdge_ok ih hrm
  | update g h _ _ ihg _ => exact wf_update ihg h
  | clear h _ _ => exact wf_empty
  | diff g t _ ih =>
    rw [difference_update_eq_purge ih t]
    exact wf_purge ih t
  | clone g _ ih =>
    rw [cloneG_eq_self ih]
    exact ih

lemma mem_keys_iff {β : Type} {k : α} {m : List (α × β)} :
    k ∈ m.map Prod.fst ↔ ∃ v, (k, v) ∈ m := by
  rw [List.mem_map]
  constructor
  · rintro ⟨e, he, rfl⟩
    exact ⟨e.2, he⟩
  · rintro ⟨v, hv⟩
    exact ⟨(k, v), hv, rfl⟩

lemma entry_eq_of_lookupA {g : Digraph α} (hw : WF g) {e : α × NodeData α}
    (he : e ∈ g.nodes) {d : NodeData α}
    (hl : lookupA e.1 g.nodes = some d) : e.2 = d := by
  have h2 := lookupA_of_mem_nodup hw.nodupKeys
    (show (e.1, e.2) ∈ g.nodes from he)
  rw [hl] at h2
  exact (Option.some_inj.mp h2).symm

lemma lookupA_map_pres {β : Type} {f : (α × β) → (α × β)}
    (hf : ∀ e, (f e).1 = e.1) (k : α) (m : List (α × β)) :
    lookupA k (m.map f) = (lookupA k m).map (fun v => (f (k, v)).2) := by
  induction m with
  | nil => simp
  | cons e m ih =>
    by_cases h : e.1 = k
    · have hfk : (f e).1 = k := by rw [hf, h]
      rw [List.map_cons, lookupA_cons, if_pos hfk, lookupA_cons, if_pos h]
      have : (k, e.2) = e := by
        cases e
        simp_all
      rw [Option.map_some', this]
    · have hfk : ¬ (f e).1 = k := by rw [hf]; exact h
      rw [List.map_cons, lookupA_cons, if_neg hfk, lookupA_cons, if_neg h, ih]

lemma lookupA_adel_self_nodup {β : Type} {k : α} {m : List (α × β)}
    (hnd : (m.map Prod.fst).Nodup) : lookupA k (adel k m) = none := by
  rw [adel_eq_filter_nodup hnd, lookupA_eq_none_iff]
  intro hmem
  obtain ⟨v, hv⟩ := mem_keys_iff.mp hmem
  have h2 := List.mem_filter.mp hv
  simp at h2

lemma mem_filtered_keys {q : (α × List PObj) → Bool}
    {m : List (α × List PObj)} (hnd : (m.map Prod.fst).Nodup) (c : α) :
    c ∈ (m.filter q).map Prod.fst ↔
      ∃ l, lookupA c m = some l ∧ q (c, l) = true := by
  rw [mem_keys_iff]
  constructor
  · rintro ⟨l, hl⟩
    have h2 := List.mem_filter.mp hl
    exact ⟨l, lookupA_of_mem_nodup hnd h2.1, h2.2⟩
  · rintro ⟨l, hl, hq⟩
    exact ⟨l, List.mem_filter.mpr ⟨mem_of_lookupA hl, hq⟩⟩

/-- The adjacency children map of a node (empty when absent). -/
def childrenMap (g : Digraph α) (n : α) : List (α × List PObj) :=
  match lookupA n g.nodes with
  | none => []
  | some d => d.children

/-- The adjacency parents map of a node (empty when absent). -/
def parentsMap (g : Digraph α) (n : α) : List (α × List PObj) :=
  match lookupA n g.nodes with
  | none => []
  | some d => d.parents

/-- The maximum priority value of an edge's priority list (the claim's
"edge's maximum priority"); 0 on the empty list, which cannot occur in
a well-formed graph. -/
def maxPval (l : List PObj) : Int :=
  match l with
  | [] => 0
  | q :: r => r.foldl (fun a x => max a x.pval) q.pval

lemma lastVal_eq_maxPval : ∀ {l : List PObj}, SortedP l → l ≠ [] →
    lastVal l = maxPval l := by
  intro l
  induction l with
  | nil => intro _ h; exact absurd rfl h
  | cons q r ih =>
    intro hs _
    cases r with
    | nil => rfl
    | cons y r2 =>
      have hqy : q.pval ≤ y.pval :=
        (List.pairwise_cons.mp hs).1 y (List.mem_cons_self y r2)
      have hs2 : SortedP (y :: r2) := (List.pairwise_cons.mp hs).2
      have h1 : lastVal (q :: y :: r2) = lastVal (y :: r2) := by
        unfold lastVal
        rw [List.getLast?_cons_cons]
      rw [h1, ih hs2 (by simp)]
      show r2.foldl (fun a x => max a x.pval) y.pval =
        (y :: r2).foldl (fun a x => max a x.pval) q.pval
      rw [List.foldl_cons, max_eq_right hqy]

end Digraph

namespace Claims

open Digraph

/-- C1: in every graph reachable by the public operations, for every
pair of present nodes `c` and `p`, `has_edge(c, p)` is true iff `p` is
among `parent_nodes(c)` iff `c` is among `child_nodes(p)`: the
children-map of the parent and the parents-map of the child always
agree on the existence of the edge. -/
theorem c1_edge_symmetry {α : Type} [DecidableEq α] [PyFalsy α]
    {g : Digraph α} (hr : Reachable g) (c p : α)
    (hc : contains g c = true) (hp : contains g p = true) :
    (hasEdge g c p = true ↔ p ∈ parentNodes g c .noFilter) ∧
    (p ∈ parentNodes g c .noFilter ↔ c ∈ childNodes g p .noFilter) := by
  have hw := wf_of_reachable hr
  unfold contains at hc hp
  obtain ⟨dc, hdc⟩ := Option.isSome_iff_exists.mp hc
  obtain ⟨dp, hdp⟩ := Option.isSome_iff_exists.mp hp
  have hpn : parentNodes g c .noFilter = dc.parents.map Prod.fst := by
    simp [parentNodes, hdc]
  have hcn : childNodes g p .noFilter = dp.children.map Prod.fst := by
    simp [childNodes, hdp]
  have hhe : hasEdge g c p = (lookupA c dp.children).isSome := by
    simp [hasEdge, hdp]
  have hiff : p ∈ dc.parents.map Prod.fst ↔ c ∈ dp.children.map Prod.fst := by
    constructor
    · intro hmem
      obtain ⟨l, hl⟩ := mem_keys_iff.mp hmem
      obtain ⟨e2, he2, hk, hm⟩ :=
        hw.parentChild (c, dc) (mem_of_lookupA hdc) (p, l) hl
      have hlook : lookupA e2.1 g.nodes = some dp := by
        rw [hk]
        exact hdp
      rw [entry_eq_of_lookupA hw he2 hlook] at hm
      exact mem_keys_iff.mpr ⟨l, hm⟩
    · intro hmem
      obtain ⟨l, hl⟩ := mem_keys_iff.mp hmem
      obtain ⟨e2, he2, hk, hm⟩ :=
        hw.childParent (p, dp) (mem_of_lookupA hdp) (c, l) hl
      have hlook : lookupA e2.1 g.nodes = some dc := by
        rw [hk]
        exact hdc
      rw [entry_eq_of_lookupA hw he2 hlook] at hm
      exact mem_keys_iff.mpr ⟨l, hm⟩
  constructor
  · rw [hhe, hpn, lookupA_isSome_iff]
    exact hiff.symm
  · rw [hpn, hcn]
    exact hiff

/-- A small concrete graph for the C1 witness: one edge 1 → 2. -/
def c1Graph : Digraph Nat := add emptyG 1 (some 2) ⟨0, 0⟩

/-- Witness for C1 at a concrete reachable graph. -/
theorem c1_edge_symmetry_witness :
    (hasEdge c1Graph 1 2 = true ↔ 2 ∈ parentNodes c1Graph 1 .noFilter) ∧
    (2 ∈ parentNodes c1Graph 1 .noFilter ↔
      1 ∈ childNodes c1Graph 2 .noFilter) :=
  c1_edge_symmetry (Reachable.add emptyG 1 (some 2) ⟨0, 0⟩ Reachable.empty)
    1 2 (by decide) (by decide)

lemma all_not_eq_decide_filter_nil {β : Type} [DecidableEq β] (q : β → Bool) (m : List β) :
    m.all (fun e => !(q e)) = decide (m.filter q = []) := by
  induction m with
  | nil => simp
  | cons e m ih =>
    cases h : q e
    · simp [List.filter_cons, h, ih]
    · simp [List.filter_cons, h]

lemma leafTest_eq {α : Type} [DecidableEq α] (g : Digraph α)
    (ip : IgnorePriority) (n : α) :
    leafTest g ip n = decide (childNodes g n ip = []) := by
  cases hl : lookupA n g.nodes with
  | none => cases ip <;> simp [leafTest, childNodes, hl]
  | some d =>
    cases ip with
    | noFilter =>
      simp only [leafTest, childNodes, hl]
      cases d.children <;> simp
    | pred f =>
      simp only [leafTest, childNodes, hl]
      rw [all_not_eq_decide_filter_nil]
      exact decide_eq_decide.mpr (by cases hf : List.filter _ _ <;> simp [hf])
    | threshold t =>
      simp only [leafTest, childNodes, hl]
      rw [all_not_eq_decide_filter_nil]
      exact decide_eq_decide.mpr (by cases hf : List.filter _ _ <;> simp [hf])

lemma rootTest_eq {α : Type} [DecidableEq α] (g : Digraph α)
    (ip : IgnorePriority) (n : α) :
    rootTest g ip n = decide (parentNodes g n ip = []) := by
  cases hl : lookupA n g.nodes with
  | none => cases ip <;> simp [rootTest, parentNodes, hl]
  | some d =>
    cases ip with
    | noFilter =>
      simp only [rootTest, parentNodes, hl]
      cases d.parents <;> simp
    | pred f =>
      simp only [rootTest, parentNodes, hl]
      rw [all_not_eq_decide_filter_nil]
      exact decide_eq_decide.mpr (by cases hf : List.filter _ _ <;> simp [hf])
    | threshold t =>
      simp only [rootTest, parentNodes, hl]
      rw [all_not_eq_decide_filter_nil]
      exact decide_eq_decide.mpr (by cases hf : List.filter _ _ <;> simp [hf])

/-- C8: for every well-formed graph and every `ignore_priority` filter,
`leaf_nodes` returns exactly the nodes, in first-insertion order, whose
`child_nodes` result is empty, and `root_nodes` those whose
`parent_nodes` result is empty. -/
theorem c8_leaf_root_duality {α : Type} [DecidableEq α] {g : Digraph α}
    (_hw : WF g) (ip : IgnorePriority) :
    leafNodes g ip =
      g.order.filter (fun n => decide (childNodes g n ip = [])) ∧
    rootNodes g ip =
      g.order.filter (fun n => decide (parentNodes g n ip = [])) := by
  constructor
  · unfold leafNodes
    exact List.filter_congr (fun n _ => leafTest_eq g ip n)
  · unfold rootNodes
    exact List.filter_congr (fun n _ => rootTest_eq g ip n)

/-- A concrete graph for the C8 witness: edges 1 → 2 (priority value 0)
and 3 → 2 (priority value -3). -/
def c8Graph : Digraph Nat :=
  add (add emptyG 1 (some 2) ⟨0, 0⟩) 3 (some 2) ⟨1, -3⟩

/-- Witness for C8 at a concrete well-formed graph and a threshold
filter. -/
theorem c8_leaf_root_duality_witness :
    leafNodes c8Graph (.threshold (-1)) =
      c8Graph.order.filter
        (fun n => decide (childNodes c8Graph n (.threshold (-1)) = [])) ∧
    rootNodes c8Graph (.threshold (-1)) =
      c8Graph.order.filter
        (fun n => decide (parentNodes c8Graph n (.threshold (-1)) = [])) :=
  c8_leaf_root_duality (by decide) (.threshold (-1))

/-- C3: for a present node of a well-formed graph, `child_nodes` (and
symmetrically `parent_nodes`) returns all neighbors when
`ignore_priority` is absent; with a predicate, a neighbor is included
iff at least one priority on the edge fails the predicate (excluded
only when every priority satisfies it); with a scalar threshold, a
neighbor is included iff the edge's maximum priority strictly exceeds
the threshold. -/
theorem c3_neighbor_filtering {α : Type} [DecidableEq α] {g : Digraph α}
    (hw : WF g) {n : α} (hn : contains g n = true) :
    (childNodes g n .noFilter = (childrenMap g n).map Prod.fst) ∧
    (∀ f c, c ∈ childNodes g n (.pred f) ↔
      ∃ l, lookupA c (childrenMap g n) = some l ∧ ∃ pr ∈ l, f pr = false) ∧
    (∀ t c, c ∈ childNodes g n (.threshold t) ↔
      ∃ l, lookupA c (childrenMap g n) = some l ∧ t < maxPval l) ∧
    (parentNodes g n .noFilter = (parentsMap g n).map Prod.fst) ∧
    (∀ f p, p ∈ parentNodes g n (.pred f) ↔
      ∃ l, lookupA p (parentsMap g n) = some l ∧ ∃ pr ∈ l, f pr = false) ∧
    (∀ t p, p ∈ parentNodes g n (.threshold t) ↔
      ∃ l, lookupA p (parentsMap g n) = some l ∧ t < maxPval l) := by
  unfold contains at hn
  obtain ⟨d, hd⟩ := Option.isSome_iff_exists.mp hn
  have hdm : (n, d) ∈ g.nodes := mem_of_lookupA hd
  have hcm : childrenMap g n = d.children := by simp [childrenMap, hd]
  have hpm : parentsMap g n = d.parents := by simp [parentsMap, hd]
  have hndc := hw.nodupChild (n, d) hdm
  have hndp := hw.nodupParent (n, d) hdm
  refine ⟨?_, ?_, ?_, ?_, ?_, ?_⟩
  · rw [hcm]
    simp [childNodes, hd]
  · intro f c
    rw [hcm]
    have heq : childNodes g n (.pred f) =
        (d.children.filter (fun e => edgeKept (.pred f) e.2)).map Prod.fst := by
      simp [childNodes, hd]
    rw [heq, mem_filtered_keys hndc]
    constructor
    · rintro ⟨l, hl, hq⟩
      refine ⟨l, hl, ?_⟩
      simp only [edgeKept, List.any_eq_true, List.mem_reverse] at hq
      obtain ⟨pr, hpr, hf⟩ := hq
      exact ⟨pr, hpr, by simpa using hf⟩
    · rintro ⟨l, hl, pr, hpr, hf⟩
      refine ⟨l, hl, ?_⟩
      simp only [edgeKept, List.any_eq_true, List.mem_reverse]
      exact ⟨pr, hpr, by simp [hf]⟩
  · intro t c
    rw [hcm]
    have heq : childNodes g n (.threshold t) =
        (d.children.filter (fun e => edgeKept (.threshold t) e.2)).map Prod.fst := by
      simp [childNodes, hd]
    rw [heq, mem_filtered_keys hndc]
    constructor
    · rintro ⟨l, hl, hq⟩
      refine ⟨l, hl, ?_⟩
      have hg := hw.prisChild (n, d) hdm (c, l) (mem_of_lookupA hl)
      simp only [edgeKept, decide_eq_true_iff] at hq
      rw [← lastVal_eq_maxPval hg.2 hg.1]
      exact hq
    · rintro ⟨l, hl, hlt⟩
      refine ⟨l, hl, ?_⟩
      have hg := hw.prisChild (n, d) hdm (c, l) (mem_of_lookupA hl)
      simp only [edgeKept, decide_eq_true_iff]
      rw [lastVal_eq_maxPval hg.2 hg.1]
      exact hlt
  · rw [hpm]
    simp [parentNodes, hd]
  · intro f p
    rw [hpm]
    have heq : parentNodes g n (.pred f) =
        (d.parents.filter (fun e => edgeKept (.pred f) e.2)).map Prod.fst := by
      simp [parentNodes, hd]
    rw [heq, mem_filtered_keys hndp]
    constructor
    · rintro ⟨l, hl, hq⟩
      refine ⟨l, hl, ?_⟩
      simp only [edgeKept, List.any_eq_true, List.mem_reverse] at hq
      obtain ⟨pr, hpr, hf⟩ := hq
      exact ⟨pr, hpr, by simpa using hf⟩
    · rintro ⟨l, hl, pr, hpr, hf⟩
      refine ⟨l, hl, ?_⟩
      simp only [edgeKept, List.any_eq_true, List.mem_reverse]
      exact ⟨pr, hpr, by simp [hf]⟩
  · intro t p
    rw [hpm]
    have heq : parentNodes g n (.threshold t) =
        (d.parents.filter (fun e => edgeKept (.threshold t) e.2)).map Prod.fst := by
      simp [parentNodes, hd]
    rw [heq, mem_filtered_keys hndp]
    constructor
    · rintro ⟨l, hl, hq⟩
      refine ⟨l, hl, ?_⟩
      have hg := hw.prisParent (n, d) hdm (p, l) (mem_of_lookupA hl)
      simp only [edgeKept, decide_eq_true_iff] at hq
      rw [← lastVal_eq_maxPval hg.2 hg.1]
      exact hq
    · rintro ⟨l, hl, hlt⟩
      refine ⟨l, hl, ?_⟩
      have hg := hw.prisParent (n, d) hdm (p, l) (mem_of_lookupA hl)
      simp only [edgeKept, decide_eq_true_iff]
      rw [lastVal_eq_maxPval hg.2 hg.1]
      exact hlt

/-- A concrete graph for the C3 witness: edges 1 → 2 (priority -3) and
3 → 2 (priority 0), so node 2 has children {1, 3}. -/
def c3Graph : Digraph Nat :=
  add (add emptyG 1 (some 2) ⟨0, -3⟩) 3 (some 2) ⟨1, 0⟩

/-- Witness for C3 at a concrete graph, a concrete predicate and a
concrete threshold. -/
theorem c3_neighbor_filtering_witness :
    (childNodes c3Graph 2 .noFilter = (childrenMap c3Graph 2).map Prod.fst) ∧
    (1 ∈ childNodes c3Graph 2 (.pred (fun pr => decide (pr.pval ≤ 0))) ↔
      ∃ l, lookupA 1 (childrenMap c3Graph 2) = some l ∧
        ∃ pr ∈ l, decide (pr.pval ≤ 0) = false) ∧
    (1 ∈ childNodes c3Graph 2 (.threshold (-1)) ↔
      ∃ l, lookupA 1 (childrenMap c3Graph 2) = some l ∧ -1 < maxPval l) :=
  ⟨(@c3_neighbor_filtering Nat _ c3Graph (by decide) 2 (by decide)).1,
    (@c3_neighbor_filtering Nat _ c3Graph (by decide) 2 (by decide)).2.1
      (fun pr => decide (pr.pval ≤ 0)) 1,
    (@c3_neighbor_filtering Nat _ c3Graph (by decide) 2 (by decide)).2.2.1
      (-1) 1⟩

lemma edgePris_ensure {α : Type} [DecidableEq α] (g : Digraph α)
    (m n p : α) : edgePris (ensureNode g m) n p = edgePris g n p := by
  unfold ensureNode
  cases h : lookupA m g.nodes with
  | some d => rfl
  | none =>
    unfold edgePris
    simp only
    rw [lookupA_append]
    cases hn : lookupA n g.nodes with
    | some d => rfl
    | none =>
      by_cases hmn : m = n
      · subst hmn
        simp [lookupA]
      · simp [lookupA, hmn]

lemma edgePris_setEdge {α : Type} [DecidableEq α] {g : Digraph α} {node : α}
    (hg : (lookupA node g.nodes).isSome = true) (p : α) (l : List PObj) :
    edgePris (setEdge g node p l) node p = l := by
  obtain ⟨d, hd⟩ := Option.isSome_iff_exists.mp hg
  unfold edgePris setEdge
  by_cases hnp : node = p
  · subst hnp
    rw [lookupA_amodify_self, lookupA_amodify_self, hd]
    simp
  · rw [lookupA_amodify_ne hnp, lookupA_amodify_self, hd]
    simp

lemma lastIsSame_ne_nil {l : List PObj} {pr : PObj}
    (h : lastIsSame l pr = true) : l ≠ [] := by
  cases l with
  | nil => simp [lastIsSame] at h
  | cons q r => simp

lemma edgePris_add {α : Type} [DecidableEq α] [PyFalsy α] (g : Digraph α)
    (n p : α) (pr : PObj) (hf : PyFalsy.falsy p = false) :
    edgePris (add g n (some p) pr) n p =
      if lastIsSame (edgePris g n p) pr = true then edgePris g n p
      else insort pr (edgePris g n p) := by
  unfold add
  show edgePris (if PyFalsy.falsy p = true then ensureNode g n
    else addEdge (ensureNode (ensureNode g n) p) n p pr) n p = _
  rw [if_neg (by simp [hf])]
  have he2 : edgePris (ensureNode (ensureNode g n) p) n p = edgePris g n p := by
    rw [edgePris_ensure, edgePris_ensure]
  have hpres : (lookupA n (ensureNode (ensureNode g n) p).nodes).isSome = true := by
    obtain ⟨d, hd⟩ := Option.isSome_iff_exists.mp (lookupA_ensure_self g n)
    rw [lookupA_ensure_of_some hd]
    rfl
  unfold addEdge
  by_cases hsame : lastIsSame (edgePris g n p) pr = true
  · rw [he2, if_pos hsame, if_pos hsame, he2]
  · rw [he2, if_neg hsame, if_neg hsame]
    exact edgePris_setEdge hpres p _

/-- C6: adding an edge with a non-falsy parent inserts the priority
into the edge's priority list in ascending sorted order, skipping the
insertion exactly when the new priority is the identical object
(`pid`, Python `is`) as the list's current last element; a skipped or
performed insertion never leaves the list empty, and a non-identical
priority (even one with an equal value) always occupies a fresh slot,
growing the list by one. -/
theorem c6_add_priority_list {α : Type} [DecidableEq α] [PyFalsy α]
    {g : Digraph α} (hw : WF g) (n p : α) (pr : PObj)
    (hf : PyFalsy.falsy p = false) :
    edgePris (add g n (some p) pr) n p =
      (if lastIsSame (edgePris g n p) pr = true then edgePris g n p
        else insort pr (edgePris g n p)) ∧
    SortedP (edgePris (add g n (some p) pr) n p) ∧
    edgePris (add g n (some p) pr) n p ≠ [] ∧
    (lastIsSame (edgePris g n p) pr = false →
      (edgePris (add g n (some p) pr) n p).length =
        (edgePris g n p).length + 1) ∧
    (lastIsSame (edgePris g n p) pr = true →
      edgePris (add g n (some p) pr) n p = edgePris g n p) := by
  have hmain := edgePris_add g n p pr hf
  have hsorted : SortedP (edgePris g n p) := sortedP_edgePris hw n p
  refine ⟨hmain, ?_, ?_, ?_, ?_⟩
  · rw [hmain]
    by_cases hsame : lastIsSame (edgePris g n p) pr = true
    · rw [if_pos hsame]
      exact hsorted
    · rw [if_neg hsame]
      exact sortedP_insort hsorted
  · rw [hmain]
    by_cases hsame : lastIsSame (edgePris g n p) pr = true
    · rw [if_pos hsame]
      exact lastIsSame_ne_nil hsame
    · rw [if_neg hsame]
      exact insort_ne_nil _ _
  · intro hsame
    rw [hmain, if_neg (by simp [hsame]), length_insort]
  · intro hsame
    rw [hmain, if_pos hsame]

/-- A concrete graph for the C6 witness: the edge 1 → 2 already holds a
priority object with value -3 and identity 0. -/
def c6Graph : Digraph Nat := add emptyG 1 (some 2) ⟨0, -3⟩

/-- Witness for C6: inserting a value-equal but distinct-identity
priority grows the list; the hypotheses are discharged concretely. -/
theorem c6_add_priority_list_witness :
    edgePris (add c6Graph 1 (some 2) ⟨7, -3⟩) 1 2 =
      (if lastIsSame (edgePris c6Graph 1 2) ⟨7, -3⟩ = true then
        edgePris c6Graph 1 2
       else insort ⟨7, -3⟩ (edgePris c6Graph 1 2)) ∧
    (edgePris (add c6Graph 1 (some 2) ⟨7, -3⟩) 1 2).length =
      (edgePris c6Graph 1 2).length + 1 :=
  ⟨(c6_add_priority_list (by decide) 1 2 ⟨7, -3⟩ (by decide)).1,
    (c6_add_priority_list (by decide) 1 2 ⟨7, -3⟩ (by decide)).2.2.2.1
      (by decide)⟩

lemma contains_ensure_ne {α : Type} [DecidableEq α] {g : Digraph α}
    {n p : α} (hne : p ≠ n) :
    contains (ensureNode g n) p = contains g p := by
  unfold ensureNode contains
  cases h : lookupA n g.nodes with
  | some d => rfl
  | none =>
    simp only
    rw [lookupA_append]
    cases hp2 : lookupA p g.nodes with
    | some d => rfl
    | none =>
      have : ¬ (n = p) := fun hh => hne hh.symm
      simp [lookupA, this]

/-- C10: `add(node, parent, priority)` with a falsy parent value (not
only `None`) only ensures `node` exists, appending it to the insertion
order on first sight; the parent value is not registered through the
edge path, the priority argument is discarded, and the call behaves
exactly like `add(node, None)`. -/
theorem c10_falsy_parent {α : Type} [DecidableEq α] [PyFalsy α]
    (g : Digraph α) (n p : α) (pr pr2 : PObj)
    (hf : PyFalsy.falsy p = true) :
    add g n (some p) pr = add g n none pr2 ∧
    add g n none pr2 = ensureNode g n ∧
    (p ≠ n → contains (add g n (some p) pr) p = contains g p) ∧
    (contains g n = false →
      (add g n (some p) pr).nodes = g.nodes ++ [(n, ⟨[], [], n⟩)] ∧
      (add g n (some p) pr).order = g.order ++ [n]) ∧
    (contains g n = true → add g n (some p) pr = g) := by
  have h1 : add g n (some p) pr = ensureNode g n := by
    unfold add
    show (if PyFalsy.falsy p = true then ensureNode g n
      else addEdge (ensureNode (ensureNode g n) p) n p pr) = _
    rw [if_pos hf]
  have h2 : add g n none pr2 = ensureNode g n := rfl
  refine ⟨h1.trans h2.symm, h2, ?_, ?_, ?_⟩
  · intro hne
    rw [h1]
    exact contains_ensure_ne hne
  · intro hncont
    have hnone : lookupA n g.nodes = none := by
      unfold contains at hncont
      exact Option.not_isSome_iff_eq_none.mp (by simp [hncont])
    rw [h1]
    unfold ensureNode
    rw [hnone]
    exact ⟨rfl, rfl⟩
  · intro hcont
    rw [h1]
    exact ensure_of_contains hcont

/-- A concrete graph for the C10 witness. -/
def c10Graph : Digraph Nat := add emptyG 1 (some 2) ⟨0, 0⟩

/-- Witness for C10: parent 0 is falsy for Python integers; the node 5
is appended, the parent is not registered, and the priority argument
does not matter. -/
theorem c10_falsy_parent_witness :
    add c10Graph 5 (some 0) ⟨0, 0⟩ = add c10Graph 5 none ⟨3, 7⟩ ∧
    contains (add c10Graph 5 (some 0) ⟨0, 0⟩) 0 = contains c10Graph 0 ∧
    (add c10Graph 5 (some 0) ⟨0, 0⟩).order = c10Graph.order ++ [5] :=
  ⟨(c10_falsy_parent c10Graph 5 0 ⟨0, 0⟩ ⟨3, 7⟩ (by decide)).1,
    (c10_falsy_parent c10Graph 5 0 ⟨0, 0⟩ ⟨3, 7⟩ (by decide)).2.2.1
      (by decide),
    ((c10_falsy_parent c10Graph 5 0 ⟨0, 0⟩ ⟨3, 7⟩ (by decide)).2.2.2.1
      (by decide)).2⟩

/-- C5 (amended): `remove_edge(child, parent)` checks the endpoints in
the order parent, child and raises `KeyError` naming the first missing
one; when both exist but the edge does not, it raises `KeyError`
naming the child (or the parent when only the reverse entry is
missing) — the same error shape as the missing-node case, so the two
failures are not distinguishable by the error alone; every failure
leaves the graph unchanged; success deletes exactly the two adjacency
entries of the directed pair and keeps both endpoint nodes. -/
theorem c5_remove_edge_behaviour {α : Type} [DecidableEq α]
    {g : Digraph α} (hw : WF g) (c p : α) :
    (lookupA p g.nodes = none → removeEdge g c p = .raised p g) ∧
    (∀ dp, lookupA p g.nodes = some dp → lookupA c g.nodes = none →
      removeEdge g c p = .raised c g) ∧
    (∀ dp dc, lookupA p g.nodes = some dp → lookupA c g.nodes = some dc →
      lookupA c dp.children = none → removeEdge g c p = .raised c g) ∧
    (∀ dp dc, lookupA p g.nodes = some dp → lookupA c g.nodes = some dc →
      (lookupA c dp.children).isSome = true → lookupA p dc.parents = none →
      removeEdge g c p = .raised p g) ∧
    (∀ k s, removeEdge g c p = .raised k s → s = g) ∧
    (∀ g', removeEdge g c p = .ok g' →
      g'.order = g.order ∧
      contains g' c = true ∧ contains g' p = true ∧
      hasEdge g' c p = false ∧
      childrenMap g' p = adel c (childrenMap g p) ∧
      parentsMap g' c = adel p (parentsMap g c) ∧
      (∀ k, k ≠ p → childrenMap g' k = childrenMap g k) ∧
      (∀ k, k ≠ c → parentsMap g' k = parentsMap g k) ∧
      (∀ k, contains g' k = contains g k)) := by
  refine ⟨?_, ?_, ?_, ?_, ?_, ?_⟩
  · intro h
    unfold removeEdge
    rw [h]
  · intro dp hp hc
    unfold removeEdge
    rw [hp, hc]
  · intro dp dc hp hc hcd
    unfold removeEdge
    rw [hp, hc]
    show (if (lookupA c dp.children).isNone = true then PyResult.raised c g
      else if (lookupA p dc.parents).isNone = true then PyResult.raised p g
      else PyResult.ok ⟨amodify p (delChild c)
        (amodify c (delParent p) g.nodes), g.order⟩) = PyResult.raised c g
    rw [if_pos (by simp [hcd])]
  · intro dp dc hp hc hcd hpc
    unfold removeEdge
    rw [hp, hc]
    show (if (lookupA c dp.children).isNone = true then PyResult.raised c g
      else if (lookupA p dc.parents).isNone = true then PyResult.raised p g
      else PyResult.ok ⟨amodify p (delChild c)
        (amodify c (delParent p) g.nodes), g.order⟩) = PyResult.raised p g
    have hne : ¬ (lookupA c dp.children).isNone = true := by
      simp only [Option.isNone_iff_eq_none]
      intro hh
      rw [hh] at hcd
      simp at hcd
    rw [if_neg hne, if_pos (by simp [hpc])]
  · intro k s h
    unfold removeEdge at h
    cases hp : lookupA p g.nodes with
    | none =>
      rw [hp] at h
      cases h
      rfl
    | some dp =>
      rw [hp] at h
      cases hc : lookupA c g.nodes with
      | none =>
        rw [hc] at h
        cases h
        rfl
      | some dc =>
        rw [hc] at h
        replace h : (if (lookupA c dp.children).isNone = true then
              PyResult.raised c g
            else if (lookupA p dc.parents).isNone = true then
              PyResult.raised p g
            else PyResult.ok ⟨amodify p (delChild c)
              (amodify c (delParent p) g.nodes), g.order⟩) =
            PyResult.raised k s := h
        by_cases h1 : (lookupA c dp.children).isNone = true
        · rw [if_pos h1] at h
          cases h
          rfl
        · rw [if_neg h1] at h
          by_cases h2 : (lookupA p dc.parents).isNone = true
          · rw [if_pos h2] at h
            cases h
            rfl
          · rw [if_neg h2] at h
            cases h
  · intro g' h
    unfold removeEdge at h
    cases hp : lookupA p g.nodes with
    | none =>
      rw [hp] at h
      cases h
    | some dp =>
      rw [hp] at h
      cases hc : lookupA c g.nodes with
      | none =>
        rw [hc] at h
        cases h
      | some dc =>
        rw [hc] at h
        replace h : (if (lookupA c dp.children).isNone = true then
              PyResult.raised c g
            else if (lookupA p dc.parents).isNone = true then
              PyResult.raised p g
            else PyResult.ok ⟨amodify p (delChild c)
              (amodify c (delParent p) g.nodes), g.order⟩) =
            PyResult.ok g' := h
        by_cases h1 : (lookupA c dp.children).isNone = true
        · rw [if_pos h1] at h
          cases h
        · rw [if_neg h1] at h
          by_cases h2 : (lookupA p dc.parents).isNone = true
          · rw [if_pos h2] at h
            cases h
          · rw [if_neg h2] at h
            injection h with h3
            have hnodes : g'.nodes = g.nodes.map (edgeDelMap c p) := by
              rw [← h3, edgeDel_nodes_eq hw.nodupKeys]
            have horder : g'.order = g.order := by
              rw [← h3]
            have hfst : ∀ e : α × NodeData α, (edgeDelMap c p e).1 = e.1 :=
              fun e => rfl
            have hlookup : ∀ k, lookupA k g'.nodes =
                (lookupA k g.nodes).map
                  (fun v => (edgeDelMap c p (k, v)).2) := by
              intro k
              rw [hnodes, lookupA_map_pres hfst]
            have hcontains : ∀ k, contains g' k = contains g k := by
              intro k
              unfold contains
              rw [hlookup k]
              cases lookupA k g.nodes <;> rfl
            have hchildren : ∀ k, childrenMap g' k =
                (if k = p then adel c (childrenMap g k)
                  else childrenMap g k) := by
              intro k
              unfold childrenMap
              rw [hlookup k]
              cases hk : lookupA k g.nodes with
              | none => by_cases hkp : k = p <;> simp [hkp, adel]
              | some d => by_cases hkp : k = p <;> simp [edgeDelMap, hkp]
            have hparents : ∀ k, parentsMap g' k =
                (if k = c then adel p (parentsMap g k)
                  else parentsMap g k) := by
              intro k
              unfold parentsMap
              rw [hlookup k]
              cases hk : lookupA k g.nodes with
              | none => by_cases hkc : k = c <;> simp [hkc, adel]
              | some d => by_cases hkc : k = c <;> simp [edgeDelMap, hkc]
            refine ⟨horder, ?_, ?_, ?_, ?_, ?_, ?_, ?_, hcontains⟩
            · rw [hcontains c]
              unfold contains
              rw [hc]
              rfl
            · rw [hcontains p]
              unfold contains
              rw [hp]
              rfl
            · unfold hasEdge
              rw [hlookup p, hp]
              show (lookupA c (edgeDelMap c p (p, dp)).2.children).isSome
                = false
              have : (edgeDelMap c p (p, dp)).2.children =
                  adel c dp.children := by
                simp [edgeDelMap]
              rw [this, lookupA_adel_self_nodup
                (hw.nodupChild (p, dp) (mem_of_lookupA hp))]
              rfl
            · rw [hchildren p, if_pos rfl]
            · rw [hparents c, if_pos rfl]
            · intro k hk
              rw [hchildren k, if_neg hk]
            · intro k hk
              rw [hparents k, if_neg hk]

/-- A graph containing only the node 2, for the C5 counterexample. -/
def c5gA : Digraph Nat := add emptyG 2 none ⟨0, 0⟩

/-- A graph containing the nodes 1 and 2 with no edge. -/
def c5gB : Digraph Nat := add (add emptyG 1 none ⟨0, 0⟩) 2 none ⟨0, 0⟩

/-- C5 counterexample: the missing-node failure (node 1 absent) and
the missing-edge failure (both endpoints present, no edge) raise the
very same `KeyError` payload — key 1 with the graph unchanged — so
missing-node and missing-edge failures are not distinguishable,
contrary to the claim's "distinguishable missing-edge error". -/
theorem c5_counterexample :
    removeEdge c5gA 1 2 = .raised 1 c5gA ∧ contains c5gA 1 = false ∧
    removeEdge c5gB 1 2 = .raised 1 c5gB ∧
    contains c5gB 1 = true ∧ contains c5gB 2 = true := by
  decide

/-- A graph with the single edge 1 → 2, for the C5 witness. -/
def c5gC : Digraph Nat := add emptyG 1 (some 2) ⟨0, 0⟩

/-- The state after removing the edge of `c5gC`: both nodes remain,
isolated. -/
def c5gD : Digraph Nat := ⟨[(1, ⟨[], [], 1⟩), (2, ⟨[], [], 2⟩)], [1, 2]⟩

/-- Witness for C5: a missing-endpoint failure and a successful
deletion at concrete inputs. -/
theorem c5_remove_edge_behaviour_witness :
    removeEdge c5gC 3 7 = .raised 7 c5gC ∧
    (c5gD.order = c5gC.order ∧
      contains c5gD 1 = true ∧ contains c5gD 2 = true ∧
      hasEdge c5gD 1 2 = false ∧
      childrenMap c5gD 2 = adel 1 (childrenMap c5gC 2) ∧
      parentsMap c5gD 1 = adel 2 (parentsMap c5gC 1) ∧
      (∀ k, k ≠ 2 → childrenMap c5gD k = childrenMap c5gC k) ∧
      (∀ k, k ≠ 1 → parentsMap c5gD k = parentsMap c5gC k) ∧
      (∀ k, contains c5gD k = contains c5gC k)) :=
  ⟨(c5_remove_edge_behaviour (by decide) 3 7).1 (by decide),
    (c5_remove_edge_behaviour (by decide) 1 2).2.2.2.2.2 c5gD (by decide)⟩

/-- The spec's concrete scenario graph:
`add("pkgA", "pkgB", RUNTIME); add("pkgB", "pkgC", RUNTIME)`. -/
def c2Graph : Digraph String :=
  add (add emptyG "pkgA" (some "pkgB") RUNTIME) "pkgB" (some "pkgC") RUNTIME

/-- C2 counterexample: after the claim's two `add` calls the code does
not return `["pkgC"]` from `leaf_nodes()` nor `["pkgA"]` from
`root_nodes()` — `add(node, parent)` records `node` as a child of
`parent`, so pkgA is the childless node and pkgC the parentless one. -/
theorem c2_counterexample :
    leafNodes c2Graph .noFilter ≠ ["pkgC"] ∧
    rootNodes c2Graph .noFilter ≠ ["pkgA"] := by
  decide

/-- C2 (amended): after `add("pkgA", "pkgB", RUNTIME)` and
`add("pkgB", "pkgC", RUNTIME)`, `leaf_nodes()` returns `["pkgA"]` and
`root_nodes()` returns `["pkgC"]`. -/
theorem c2_amended_scenario :
    leafNodes c2Graph .noFilter = ["pkgA"] ∧
    rootNodes c2Graph .noFilter = ["pkgC"] := by
  decide

/-- A `DepPriority` with both `optional` and `buildtime_slot_op` set. -/
def c7Both : DepPriority := { optional := true, buildtime_slot_op := true }

/-- C7 counterexample: `__int__` tests `optional` before
`buildtime_slot_op`, so a priority with both flags ranks -5, not the 0
demanded by the claim's hardest-first precedence (formalised by
`specRank`). -/
theorem c7_counterexample :
    DepPriority.toInt c7Both = -5 ∧ DepPriority.specRank c7Both = 0 ∧
    DepPriority.toInt c7Both ≠ DepPriority.specRank c7Both := by
  decide

/-- C7 (amended): the integer rank tests `optional` first (-5), then
slot-operator-at-buildtime (0), buildtime (-1),
slot-operator-at-runtime (-2), runtime (-3), post-runtime (-4), and
-6 when nothing is set; the `ignored` flag never changes the numeric
rank but overrides the display label. -/
theorem c7_rank_and_label (p : DepPriority) :
    (∀ b, DepPriority.toInt { p with ignored := b } = DepPriority.toInt p) ∧
    (p.optional = true → DepPriority.toInt p = -5) ∧
    (p.optional = false → p.buildtime_slot_op = true →
      DepPriority.toInt p = 0) ∧
    (p.optional = false → p.buildtime_slot_op = false → p.buildtime = true →
      DepPriority.toInt p = -1) ∧
    (p.optional = false → p.buildtime_slot_op = false →
      p.buildtime = false → p.runtime_slot_op = true →
      DepPriority.toInt p = -2) ∧
    (p.optional = false → p.buildtime_slot_op = false →
      p.buildtime = false → p.runtime_slot_op = false → p.runtime = true →
      DepPriority.toInt p = -3) ∧
    (p.optional = false → p.buildtime_slot_op = false →
      p.buildtime = false → p.runtime_slot_op = false → p.runtime = false →
      p.runtime_post = true → DepPriority.toInt p = -4) ∧
    (p.optional = false → p.buildtime_slot_op = false →
      p.buildtime = false → p.runtime_slot_op = false → p.runtime = false →
      p.runtime_post = false → DepPriority.toInt p = -6) ∧
    (p.ignored = true → DepPriority.toLabel p = "ignored") := by
  refine ⟨?_, ?_, ?_, ?_, ?_, ?_, ?_, ?_, ?_⟩
  · intro b
    cases p
    rfl
  all_goals (intros; simp_all [DepPriority.toInt, DepPriority.toLabel])

/-- Witness for C7 (amended) at concrete priorities. -/
theorem c7_rank_and_label_witness :
    DepPriority.toInt { runtime := true } = -3 ∧
    DepPriority.toLabel { runtime := true, ignored := true } = "ignored" :=
  ⟨(c7_rank_and_label { runtime := true }).2.2.2.2.2.1 rfl rfl rfl rfl rfl,
    (c7_rank_and_label { runtime := true, ignored := true
      }).2.2.2.2.2.2.2.2 rfl⟩

/-- A sequence of successful `remove` calls, one per listed node, from
the first graph to the second. -/
inductive RemSeq {α : Type} [DecidableEq α] :
    Digraph α → List α → Digraph α → Prop where
  | nil (g : Digraph α) : RemSeq g [] g
  | cons {g g1 g2 : Digraph α} {n : α} {l : List α} :
      remove g n = .ok g1 → RemSeq g1 l g2 → RemSeq g (n :: l) g2

/-- C9: for a well-formed graph and distinct nodes that are all
present, `difference_update` produces exactly the state reached by
calling `remove` on each node in turn (each call succeeding). -/
theorem c9_difference_update {α : Type} [DecidableEq α] :
    ∀ (l : List α) (g : Digraph α), WF g → l.Nodup →
      (∀ x ∈ l, contains g x = true) →
      RemSeq g l (difference_update g l) := by
  intro l
  induction l with
  | nil =>
    intro g hw _ _
    rw [difference_update_eq_purge hw, purge_nil]
    exact RemSeq.nil g
  | cons n l ih =>
    intro g hw hnd hall
    rw [List.nodup_cons] at hnd
    have hcont : contains g n = true := hall n (List.mem_cons_self n l)
    obtain ⟨d, hd⟩ := Option.isSome_iff_exists.mp hcont
    have hrm : remove g n = .ok (purge g [n]) := remove_ok_eq_purge hw hd
    have hw2 : WF (purge g [n]) := wf_purge hw [n]
    have hall2 : ∀ x ∈ l, contains (purge g [n]) x = true := by
      intro x hx
      rw [contains_purge]
      have h1 : contains g x = true := hall x (List.mem_cons_of_mem n hx)
      have h2 : ¬ x = n := fun hxn => hnd.1 (hxn ▸ hx)
      simp [h1, h2]
    have hseq := ih (purge g [n]) hw2 hnd.2 hall2
    have heq : difference_update g (n :: l) =
        difference_update (purge g [n]) l := by
      rw [difference_update_eq_purge hw, difference_update_eq_purge hw2,
        purge_purge]
      rfl
    rw [heq]
    exact RemSeq.cons hrm hseq

/-- A concrete graph for the C9 witness: edges 1 → 2 and 2 → 3. -/
def c9Graph : Digraph Nat :=
  add (add emptyG 1 (some 2) ⟨0, 0⟩) 2 (some 3) ⟨0, 0⟩

/-- Witness for C9 at a concrete graph and removal list. -/
theorem c9_difference_update_witness :
    RemSeq c9Graph [2, 1] (difference_update c9Graph [2, 1]) :=
  c9_difference_update [2, 1] c9Graph (by decide) (by decide) (by decide)

lemma spAux_ne_nil {α : Type} [DecidableEq α] (e : α) :
    ∀ (pairs : List (Option α × α)) (paths : List (Option α × List α))
      (q : List α), spAux e pairs paths = some q → q ≠ [] := by
  intro pairs
  induction pairs with
  | nil =>
    intro paths q h
    simp [spAux] at h
  | cons pc rest ih =>
    intro paths q h
    obtain ⟨pa, c⟩ := pc
    rw [spAux] at h
    by_cases hc : c = e
    · rw [if_pos hc] at h
      have := Option.some_inj.mp h
      rw [← this]
      simp
    · rw [if_neg hc] at h
      exact ih _ q h

lemma shortestPath_ne_nil {α : Type} [DecidableEq α] {g : Digraph α}
    {s e : α} {ip : IgnorePriority} {q : List α}
    (h : shortestPath g s e ip = some q) : q ≠ [] := by
  unfold shortestPath at h
  by_cases hc : (contains g s && contains g e) = true
  · rw [if_pos hc] at h
    exact spAux_ne_nil e _ _ q h
  · rw [if_neg hc] at h
    cases h

/-- The paths computed by `get_cycles`, per node: for each qualifying
child, the shortest path back to the node (when one exists). -/
def cyclePaths {α : Type} [DecidableEq α] (g : Digraph α)
    (ip : IgnorePriority) (n : α) : List (List α) :=
  (childNodes g n ip).filterMap (fun c => shortestPath g c n ip)

lemma cyclePaths_ne_nil {α : Type} [DecidableEq α] (g : Digraph α)
    (ip : IgnorePriority) (n : α) :
    ∀ q ∈ cyclePaths g ip n, q ≠ [] := by
  intro q hq
  obtain ⟨c, _, hsp⟩ := List.mem_filterMap.mp hq
  exact shortestPath_ne_nil hsp

lemma cycleFold_eq {α : Type} [DecidableEq α] (g : Digraph α)
    (ip : IgnorePriority) (n : α)
    (st : Option (List α) × List (List α)) :
    (childNodes g n ip).foldl (cycleStep g ip n) st =
      (cyclePaths g ip n).foldl cyclePathStep st := by
  unfold cyclePaths
  generalize childNodes g n ip = cs
  induction cs generalizing st with
  | nil => rfl
  | cons c cs ih =>
    rw [List.foldl_cons, List.filterMap_cons]
    cases hsp : shortestPath g c n ip with
    | none =>
      have hstep : cycleStep g ip n st c = st := by
        unfold cycleStep
        rw [hsp]
      rw [hstep]
      exact ih st
    | some path =>
      have hstep : cycleStep g ip n st c = cyclePathStep st path := by
        unfold cycleStep
        rw [hsp]
      rw [hstep, List.foldl_cons]
      exact ih _

/-- The final per-node minimum length among the computed cycle paths. -/
def minLenOver {α : Type} (ps : List (List α)) : Nat :=
  match ps with
  | [] => 0
  | p :: r => r.foldl (fun a q => min a q.length) p.length

lemma foldl_min_le_init {α : Type} (r : List (List α)) :
    ∀ a : Nat, r.foldl (fun x q => min x q.length) a ≤ a := by
  induction r with
  | nil => intro a; exact le_refl a
  | cons q r ih =>
    intro a
    exact le_trans (ih _) (min_le_left _ _)

lemma foldl_min_le_mem {α : Type} (r : List (List α)) :
    ∀ (a : Nat) (q : List α), q ∈ r →
      r.foldl (fun x p => min x p.length) a ≤ q.length := by
  induction r with
  | nil =>
    intro a q h
    simp at h
  | cons p r ih =>
    intro a q h
    rcases List.mem_cons.mp h with rfl | h
    · exact le_trans (foldl_min_le_init r _) (min_le_right _ _)
    · exact ih _ q h

lemma cyclePathStep_fold {α : Type} [DecidableEq α] :
    ∀ (ps : List (List α)) (l : List α) (cs : List (List α)),
      l ≠ [] → (∀ q ∈ ps, q ≠ []) →
      ∃ l2 cs2, ps.foldl cyclePathStep (some l, cs) = (some l2, cs2) ∧
        l2 ≠ [] ∧
        l2.length = ps.foldl (fun a q => min a q.length) l.length ∧
        ∀ m, m ≤ l.length → (∀ q ∈ ps, m ≤ q.length) →
          cs2.filter (fun q => q.length == m) =
            cs.filter (fun q => q.length == m) ++
              ps.filter (fun q => q.length == m) := by
  intro ps
  induction ps with
  | nil =>
    intro l cs hl _
    exact ⟨l, cs, rfl, hl, rfl, fun m _ _ => by simp⟩
  | cons q ps ih =>
    intro l cs hl hqs
    have hq : q ≠ [] := hqs q (List.mem_cons_self q ps)
    have hlie : l.isEmpty = false := by
      cases l
      · exact absurd rfl hl
      · rfl
    rw [List.foldl_cons]
    by_cases hle : q.length ≤ l.length
    · have hstep : cyclePathStep (some l, cs) q = (some q, cs ++ [q]) := by
        unfold cyclePathStep
        simp [hlie, hle]
      obtain ⟨l2, cs2, hfold, hl2, hlen, hfil⟩ :=
        ih q (cs ++ [q]) hq (fun x hx => hqs x (List.mem_cons_of_mem q hx))
      refine ⟨l2, cs2, by rw [hstep]; exact hfold, hl2, ?_, ?_⟩
      · rw [hlen, List.foldl_cons, min_eq_right hle]
      · intro m hm hms
        have hmq : m ≤ q.length := hms q (List.mem_cons_self q ps)
        rw [hfil m hmq (fun x hx => hms x (List.mem_cons_of_mem q hx)),
          List.filter_append]
        cases hPq : (q.length == m) <;>
          simp [List.filter_cons, hPq, List.append_assoc]
    · have hgt : l.length < q.length := by omega
      have hstep : cyclePathStep (some l, cs) q = (some l, cs) := by
        unfold cyclePathStep
        simp [hlie, hle]
      obtain ⟨l2, cs2, hfold, hl2, hlen, hfil⟩ :=
        ih l cs hl (fun x hx => hqs x (List.mem_cons_of_mem q hx))
      refine ⟨l2, cs2, by rw [hstep]; exact hfold, hl2, ?_, ?_⟩
      · rw [hlen, List.foldl_cons, min_eq_left (le_of_lt hgt)]
      · intro m hm hms
        rw [hfil m hm (fun x hx => hms x (List.mem_cons_of_mem q hx))]
        have hPq : (q.length == m) = false := by
          simp only [beq_eq_false_iff_ne, ne_eq]
          omega
        rw [List.filter_cons_of_neg (by simp [hPq])]

/-- The claim-side description of the per-node contribution of
`get_cycles`: all computed cycle paths achieving the node's minimum
length, subject to the (falsy-aware) `max_length` gate. -/
def c4NodeSpec {α : Type} [DecidableEq α] (g : Digraph α)
    (ip : IgnorePriority) (ml : Option Nat) (n : α) : List (List α) :=
  if (cyclePaths g ip n).isEmpty then []
  else if maxLenOK ml (minLenOver (cyclePaths g ip n)) then
    (cyclePaths g ip n).filter
      (fun q => q.length == minLenOver (cyclePaths g ip n))
  else []

lemma getCyclesFor_eq {α : Type} [DecidableEq α] (g : Digraph α)
    (ip : IgnorePriority) (ml : Option Nat) (n : α) :
    getCyclesFor g ip ml n = c4NodeSpec g ip ml n := by
  unfold getCyclesFor c4NodeSpec
  rw [cycleFold_eq]
  cases hps : cyclePaths g ip n with
  | nil => simp
  | cons p0 rest =>
    have hnn := cyclePaths_ne_nil g ip n
    have hp0 : p0 ≠ [] := hnn p0 (by rw [hps]; exact List.mem_cons_self _ _)
    rw [List.foldl_cons]
    have hstep : cyclePathStep ((none : Option (List α)),
        ([] : List (List α))) p0 = (some p0, [p0]) := by
      unfold cyclePathStep
      simp
    rw [hstep]
    obtain ⟨l2, cs2, hfold, hl2, hlen, hfil⟩ :=
      cyclePathStep_fold rest p0 [p0] hp0
        (fun x hx => hnn x (by rw [hps]; exact List.mem_cons_of_mem p0 hx))
    rw [hfold]
    have hl2e : l2.isEmpty = false := by
      cases l2
      · exact absurd rfl hl2
      · rfl
    have hmin : minLenOver (p0 :: rest) = l2.length := by
      rw [hlen]
      rfl
    have hm1 : l2.length ≤ p0.length := by
      rw [hlen]
      exact foldl_min_le_init rest p0.length
    have hm2 : ∀ q ∈ rest, l2.length ≤ q.length := by
      intro q hq
      rw [hlen]
      exact foldl_min_le_mem rest p0.length q hq
    have hfil2 := hfil l2.length hm1 hm2
    show (if l2.isEmpty = true then []
      else if maxLenOK ml l2.length then
        cs2.filter (fun q => q.length == l2.length)
      else []) = _
    rw [hl2e, hmin]
    simp only [Bool.false_eq_true, if_false, List.isEmpty_cons]
    by_cases hok : maxLenOK ml l2.length = true
    · rw [if_pos hok, if_pos hok, hfil2]
      cases hPq : (p0.length == l2.length) <;>
        simp [List.filter_cons, hPq]
    · rw [if_neg hok, if_neg hok]

/-- C4 (amended): `get_cycles` returns, node by node in dictionary
order, every computed cycle path achieving that node's minimum length
(not just the first found); whenever `max_length` is set to a nonzero
value, every returned cycle has length at most `max_length`
(`max_length = 0` is falsy and, exactly like `None`, disables the
bound). -/
theorem c4_get_cycles {α : Type} [DecidableEq α] (g : Digraph α)
    (ip : IgnorePriority) (ml : Option Nat) :
    getCycles g ip ml =
      ((g.nodes.map Prod.fst).map (c4NodeSpec g ip ml)).join ∧
    (∀ v, ml = some v → v ≠ 0 → ∀ q ∈ getCycles g ip ml, q.length ≤ v) := by
  have hchar : getCycles g ip ml =
      ((g.nodes.map Prod.fst).map (c4NodeSpec g ip ml)).join := by
    unfold getCycles
    congr 1
    exact List.map_congr_left (fun n _ => getCyclesFor_eq g ip ml n)
  refine ⟨hchar, ?_⟩
  intro v hml hv q hq
  rw [hchar] at hq
  obtain ⟨L, hL, hqL⟩ := List.mem_join.mp hq
  obtain ⟨n, _, rfl⟩ := List.mem_map.mp hL
  unfold c4NodeSpec at hqL
  by_cases h1 : (cyclePaths g ip n).isEmpty = true
  · rw [if_pos h1] at hqL
    simp at hqL
  · rw [if_neg h1] at hqL
    by_cases h2 : maxLenOK ml (minLenOver (cyclePaths g ip n)) = true
    · rw [if_pos h2] at hqL
      have hq2 := List.mem_filter.mp hqL
      have hqlen : q.length = minLenOver (cyclePaths g ip n) := by
        simpa using hq2.2
      rw [hml] at h2
      unfold maxLenOK at h2
      rcases Bool.or_eq_true_iff.mp h2 with h3 | h3
      · exact absurd (by simpa using h3) hv
      · rw [hqlen]
        simpa using h3
    · rw [if_neg h2] at hqL
      simp at hqL

/-- A self-loop graph 1 → 1, for the C4 counterexample and witness. -/
def c4Loop : Digraph Nat := add emptyG 1 (some 1) ⟨0, 0⟩

/-- C4 counterexample: with `max_length` set to 0, the length-1 cycle
is still returned, because `not max_length` treats 0 exactly like
`None`; the claim's "whenever max_length is set" fails at 0. -/
theorem c4_counterexample :
    getCycles c4Loop .noFilter (some 0) = [[1]] ∧
    ¬ (([1] : List Nat).length ≤ 0) := by
  decide

/-- Witness for C4 at a concrete graph and a nonzero bound. -/
theorem c4_get_cycles_witness :
    getCycles c4Loop .noFilter (some 5) =
      ((c4Loop.nodes.map Prod.fst).map
        (c4NodeSpec c4Loop .noFilter (some 5))).join ∧
    ([1] : List Nat).length ≤ 5 :=
  ⟨(c4_get_cycles c4Loop .noFilter (some 5)).1,
    (c4_get_cycles c4Loop .noFilter (some 5)).2 5 rfl (by decide) [1]
      (by decide)⟩

end Claims

end PortageVerify
